import Mathlib

/-!
Verification development for the izi-noir repository: an ACIR → R1CS
converter, a Groth16 pipeline over BN254 (arkworks), a gnark-compatible
byte serializer, and a Solana on-chain Groth16 verifier built on host
curve syscalls.

The Rust sources are embedded shallowly:
* machine bytes are `List Nat` with well-formedness (`< 256`) tracked in
  hypotheses;
* the BN254 base field `Fq` and scalar field `Fr` are `ZMod p` / `ZMod r`
  with the concrete moduli;
* fallible Rust functions return `Except`;
* the three Solana syscalls (G1 scalar multiplication, G1 addition,
  multi-pairing check) are an abstract `Host` capability record, and the
  embedded verifier counts how many host calls it makes.
-/

set_option maxRecDepth 8000

deriving instance DecidableEq for Except

namespace IziNoir

/-- BN254 base field modulus (the prime q of ark-bn254's `Fq`). -/
def pBN : Nat := 21888242871839275222246405745257275088696311157297823662689037894645226208583

/-- BN254 scalar field modulus (the prime r of ark-bn254's `Fr`). -/
def rBN : Nat := 21888242871839275222246405745257275088548364400416034343698204186575808495617

/-- The BN254 base field. -/
abbrev Fq := ZMod pBN

/-- The BN254 scalar field. -/
abbrev Fr := ZMod rBN

/-- Byte strings; each entry is intended to be `< 256`. -/
abbrev Bytes := List Nat

/-- Little-endian byte encoding of a natural number on `k` bytes.
Mirrors arkworks `BigInt::to_bytes_le` for a canonical representative
(fixed width, least significant byte first). -/
def natToBytesLE : Nat → Nat → Bytes
  | 0, _ => []
  | k+1, n => n % 256 :: natToBytesLE k (n / 256)

/-- Value of a little-endian byte string. Mirrors
`PrimeField::from_le_bytes_mod_order` before the final modular reduction. -/
def fromLeNat : Bytes → Nat
  | [] => 0
  | b :: rest => b + 256 * fromLeNat rest

/-- Value of a big-endian byte string. -/
def beNat (l : Bytes) : Nat := fromLeNat l.reverse

theorem natToBytesLE_length (k n : Nat) : (natToBytesLE k n).length = k := by
  induction k generalizing n with
  | zero => rfl
  | succ k ih => simp [natToBytesLE, ih]

theorem natToBytesLE_lt (k n : Nat) : ∀ b ∈ natToBytesLE k n, b < 256 := by
  induction k generalizing n with
  | zero => simp [natToBytesLE]
  | succ k ih =>
    intro b hb
    simp only [natToBytesLE, List.mem_cons] at hb
    rcases hb with h | h
    · exact h ▸ Nat.mod_lt _ (by norm_num)
    · exact ih _ b h

theorem fromLe_natToBytesLE (k n : Nat) (h : n < 256 ^ k) :
    fromLeNat (natToBytesLE k n) = n := by
  induction k generalizing n with
  | zero =>
    have : n = 0 := Nat.lt_one_iff.mp (by simpa using h)
    simp [natToBytesLE, fromLeNat, this]
  | succ k ih =>
    have hdiv : n / 256 < 256 ^ k := by
      rw [Nat.div_lt_iff_lt_mul (by norm_num)]
      calc n < 256 ^ (k+1) := h
        _ = 256 ^ k * 256 := by ring
    simp only [natToBytesLE, fromLeNat, ih _ hdiv]
    omega

theorem natToBytesLE_fromLe (l : Bytes) (h : ∀ b ∈ l, b < 256) :
    natToBytesLE l.length (fromLeNat l) = l := by
  induction l with
  | nil => rfl
  | cons b rest ih =>
    have hb : b < 256 := h b (by simp)
    have hmod : (b + 256 * fromLeNat rest) % 256 = b := by
      rw [Nat.add_mul_mod_self_left]
      exact Nat.mod_eq_of_lt hb
    have hdivq : (b + 256 * fromLeNat rest) / 256 = fromLeNat rest := by
      rw [Nat.add_mul_div_left _ _ (by norm_num : (0:Nat) < 256)]
      simp [Nat.div_eq_of_lt hb]
    simp [natToBytesLE, fromLeNat, hmod, hdivq, ih fun x hx => h x (by simp [hx])]

theorem fromLe_lt (l : Bytes) (h : ∀ b ∈ l, b < 256) :
    fromLeNat l < 256 ^ l.length := by
  induction l with
  | nil => simp [fromLeNat]
  | cons b rest ih =>
    have hb : b < 256 := h b (by simp)
    have hr : fromLeNat rest < 256 ^ rest.length := ih fun x hx => h x (by simp [hx])
    calc b + 256 * fromLeNat rest
        < 256 + 256 * fromLeNat rest := by omega
      _ = 256 * (fromLeNat rest + 1) := by ring
      _ ≤ 256 * 256 ^ rest.length := by
          exact Nat.mul_le_mul_left _ (Nat.succ_le_of_lt hr)
      _ = 256 ^ (b :: rest).length := by simp [List.length_cons]; ring

theorem fromLe_replicate_zero (k : Nat) : fromLeNat (List.replicate k 0) = 0 := by
  induction k with
  | zero => rfl
  | succ k ih => simp [List.replicate, fromLeNat, ih]

/-! ## gnark_compat.rs: cross-format serialization

Source: `packages/arkworks-groth16-wasm/src/gnark_compat.rs`. -/

/-- Error kinds of `ArkworksError` (error.rs). Free-text payloads are
dropped; `MissingWitness` keeps its witness index as in the source. -/
inductive ArkErr where
  | ParseError
  | UnsupportedOpcode
  | SynthesisError
  | ProofError
  | VerificationError
  | SerializationError
  | InvalidInput
  | MissingWitness (idx : Nat)
  | WasmError
deriving DecidableEq, Repr

/-- Size of a G1 point in gnark format (`G1_SIZE`). -/
def G1_SIZE : Nat := 64

/-- Size of a G2 point in gnark format (`G2_SIZE`). -/
def G2_SIZE : Nat := 128

/-- Size of a field element (`FIELD_SIZE`). -/
def FIELD_SIZE : Nat := 32

/-- Size of a Groth16 proof in gnark format (`PROOF_SIZE`). -/
def PROOF_SIZE : Nat := 256

/-- Embedding of ark-bn254 `G1Affine`: affine coordinates plus the
infinity flag. The identity's stored coordinates are never read by any
embedded function (encoding branches on the flag first), so their choice
is unobservable; we use `(0, 0)`. -/
structure G1Affine where
  x : Fq
  y : Fq
  infinity : Bool
deriving DecidableEq, Repr

/-- `G1Affine::zero()`: the point at infinity. -/
def G1Affine.zero : G1Affine := ⟨0, 0, true⟩

/-- BN254 G1 curve equation `y² = x³ + 3` (`is_on_curve`). The G1 cofactor
is one, so ark-bn254's subgroup check is trivially true and is not
modelled separately. -/
def onCurveG1 (x y : Fq) : Bool := y * y == x * x * x + 3

/-- Elements of Fq2 = Fq[u]/(u² + 1) as (c0, c1) pairs. -/
abbrev Fq2 := Fq × Fq

def fq2Add (a b : Fq2) : Fq2 := (a.1 + b.1, a.2 + b.2)

def fq2Sub (a b : Fq2) : Fq2 := (a.1 - b.1, a.2 - b.2)

def fq2Neg (a : Fq2) : Fq2 := (-a.1, -a.2)

/-- Fq2 multiplication with nonresidue −1 (BN254). -/
def fq2Mul (a b : Fq2) : Fq2 := (a.1 * b.1 - a.2 * b.2, a.1 * b.2 + a.2 * b.1)

/-- Fq2 inverse: (c0 − c1·u) / (c0² + c1²). -/
def fq2Inv (a : Fq2) : Fq2 :=
  ((a.1 * a.1 + a.2 * a.2)⁻¹ * a.1, (a.1 * a.1 + a.2 * a.2)⁻¹ * (-a.2))

/-- BN254 G2 curve coefficient b = 3/(9+u) (ark-bn254 `g2::COEFF_B`). -/
def g2CoeffB : Fq2 :=
  (19485874751759354771024239261021720505790618469301721065564631296452457478373,
   266929791119991161246907387137283842545076965332900288569378510910307636690)

/-- BN254 G2 curve equation `y² = x³ + b` (`is_on_curve`). -/
def onCurveG2 (x y : Fq2) : Bool :=
  fq2Mul y y == fq2Add (fq2Mul x (fq2Mul x x)) g2CoeffB

/-- Embedding of ark-bn254 `G2Affine` (same conventions as `G1Affine`). -/
structure G2Affine where
  x : Fq2
  y : Fq2
  infinity : Bool
deriving DecidableEq, Repr

/-- `G2Affine::zero()`: the point at infinity. -/
def G2Affine.zero : G2Affine := ⟨(0, 0), (0, 0), true⟩

/-- Affine short-Weierstrass addition on G2 (a = 0). -/
def g2AddPt (P Q : G2Affine) : G2Affine :=
  if P.infinity then Q
  else if Q.infinity then P
  else if P.x = Q.x then
    if P.y = fq2Neg Q.y then G2Affine.zero
    else
      let lam := fq2Mul (fq2Mul ((3 : Fq), (0 : Fq)) (fq2Mul P.x P.x))
        (fq2Inv (fq2Mul ((2 : Fq), (0 : Fq)) P.y))
      let x3 := fq2Sub (fq2Sub (fq2Mul lam lam) P.x) Q.x
      ⟨x3, fq2Sub (fq2Mul lam (fq2Sub P.x x3)) P.y, false⟩
  else
    let lam := fq2Mul (fq2Sub Q.y P.y) (fq2Inv (fq2Sub Q.x P.x))
    let x3 := fq2Sub (fq2Sub (fq2Mul lam lam) P.x) Q.x
    ⟨x3, fq2Sub (fq2Mul lam (fq2Sub P.x x3)) P.y, false⟩

/-- Scalar multiplication on G2 by binary decomposition. -/
def g2Smul (n : Nat) (P : G2Affine) : G2Affine :=
  if h : n = 0 then G2Affine.zero
  else
    let half := g2Smul (n / 2) P
    let d := g2AddPt half half
    if n % 2 = 1 then g2AddPt d P else d
decreasing_by exact Nat.div_lt_self (Nat.pos_of_ne_zero h) one_lt_two

/-- Subgroup membership of a finite G2 point, `r·P = O`
(ark-bn254's `is_in_correct_subgroup_assuming_on_curve`, specified by
its defining property). -/
def inSubgroupG2 (x y : Fq2) : Bool := g2Smul rBN ⟨x, y, false⟩ == G2Affine.zero

/-- `fq_to_be_bytes`: canonical little-endian limbs, then an explicit
byte-order reversal into 32 big-endian bytes. -/
def fq_to_be_bytes (x : Fq) : Bytes := (natToBytesLE 32 x.val).reverse

/-- `fr_to_be_bytes`: same as `fq_to_be_bytes` over the scalar field. -/
def fr_to_be_bytes (x : Fr) : Bytes := (natToBytesLE 32 x.val).reverse

/-- `fq_from_be_bytes`: exact-length check, byte-order reversal, then
`from_le_bytes_mod_order`. -/
def fq_from_be_bytes (b : Bytes) : Except ArkErr Fq :=
  if b.length = 32 then .ok ((fromLeNat b.reverse : Nat) : Fq)
  else .error .ParseError

/-- `fr_from_be_bytes`: scalar-field version of `fq_from_be_bytes`. -/
def fr_from_be_bytes (b : Bytes) : Except ArkErr Fr :=
  if b.length = 32 then .ok ((fromLeNat b.reverse : Nat) : Fr)
  else .error .ParseError

/-- `g1_to_gnark`: all-zero bytes for the point at infinity, otherwise
the big-endian x and y coordinates. -/
def g1_to_gnark (p : G1Affine) : Bytes :=
  if p.infinity then List.replicate 64 0
  else fq_to_be_bytes p.x ++ fq_to_be_bytes p.y

/-- `g1_from_gnark`. The 64-byte input length is enforced by the Rust
array type; here short inputs fail through the inner length checks. The
`G1Affine::new` on-curve assertion (a panic in Rust) is modelled as a
parse error; the G1 subgroup check is trivial (cofactor one). -/
def g1_from_gnark (b : Bytes) : Except ArkErr G1Affine :=
  if b.all (· == 0) then .ok G1Affine.zero
  else do
    let x ← fq_from_be_bytes (b.take 32)
    let y ← fq_from_be_bytes (b.drop 32)
    if onCurveG1 x y then .ok ⟨x, y, false⟩ else .error .ParseError

/-- `g2_to_gnark`: all-zero bytes for infinity, otherwise
`x.c0 ‖ x.c1 ‖ y.c0 ‖ y.c1` in big-endian. -/
def g2_to_gnark (p : G2Affine) : Bytes :=
  if p.infinity then List.replicate 128 0
  else fq_to_be_bytes p.x.1 ++ fq_to_be_bytes p.x.2 ++
    fq_to_be_bytes p.y.1 ++ fq_to_be_bytes p.y.2

/-- `g2_from_gnark`; the `G2Affine::new` on-curve and subgroup assertions
(panics in Rust) are modelled as a parse error. -/
def g2_from_gnark (b : Bytes) : Except ArkErr G2Affine :=
  if b.all (· == 0) then .ok G2Affine.zero
  else do
    let x0 ← fq_from_be_bytes (b.take 32)
    let x1 ← fq_from_be_bytes ((b.drop 32).take 32)
    let y0 ← fq_from_be_bytes ((b.drop 64).take 32)
    let y1 ← fq_from_be_bytes (b.drop 96)
    if onCurveG2 (x0, x1) (y0, y1) && inSubgroupG2 (x0, x1) (y0, y1) then
      .ok ⟨(x0, x1), (y0, y1), false⟩
    else .error .ParseError

instance : NeZero pBN := ⟨by decide⟩

instance : NeZero rBN := ⟨by decide⟩

theorem pBN_lt_pow : pBN < 256 ^ 32 := by decide

theorem rBN_lt_pow : rBN < 256 ^ 32 := by decide

theorem fq_to_be_bytes_length (x : Fq) : (fq_to_be_bytes x).length = 32 := by
  simp [fq_to_be_bytes, natToBytesLE_length]

theorem fq_to_be_bytes_lt (x : Fq) : ∀ b ∈ fq_to_be_bytes x, b < 256 := by
  intro b hb
  simp only [fq_to_be_bytes, List.mem_reverse] at hb
  exact natToBytesLE_lt _ _ b hb

theorem fq_roundtrip (x : Fq) : fq_from_be_bytes (fq_to_be_bytes x) = Except.ok x := by
  have hval : x.val < 256 ^ 32 := lt_trans (ZMod.val_lt x) pBN_lt_pow
  simp [fq_from_be_bytes, fq_to_be_bytes, natToBytesLE_length, List.reverse_reverse,
    fromLe_natToBytesLE _ _ hval, ZMod.natCast_rightInverse x]

theorem fr_roundtrip (x : Fr) : fr_from_be_bytes (fr_to_be_bytes x) = Except.ok x := by
  have hval : x.val < 256 ^ 32 := lt_trans (ZMod.val_lt x) rBN_lt_pow
  simp [fr_from_be_bytes, fr_to_be_bytes, natToBytesLE_length, List.reverse_reverse,
    fromLe_natToBytesLE _ _ hval, ZMod.natCast_rightInverse x]

theorem fq_to_be_of_cast (v : Nat) (hv : v < pBN) :
    fq_to_be_bytes ((v : Nat) : Fq) = (natToBytesLE 32 v).reverse := by
  have : (((v : Nat) : Fq)).val = v := by
    rw [ZMod.val_natCast]
    exact Nat.mod_eq_of_lt hv
  simp [fq_to_be_bytes, this]

theorem fr_to_be_of_cast (v : Nat) (hv : v < rBN) :
    fr_to_be_bytes ((v : Nat) : Fr) = (natToBytesLE 32 v).reverse := by
  have : (((v : Nat) : Fr)).val = v := by
    rw [ZMod.val_natCast]
    exact Nat.mod_eq_of_lt hv
  simp [fr_to_be_bytes, this]

theorem natToBytesLE_fromLe_reverse (b : Bytes) (hlen : b.length = 32)
    (hlt : ∀ i ∈ b, i < 256) :
    (natToBytesLE 32 (fromLeNat b.reverse)).reverse = b := by
  have h1 : ∀ i ∈ b.reverse, i < 256 := fun i hi => hlt i (List.mem_reverse.mp hi)
  have h2 : b.reverse.length = 32 := by simp [hlen]
  have := natToBytesLE_fromLe b.reverse h1
  rw [h2] at this
  rw [this, List.reverse_reverse]

theorem fromLe_eq_zero (l : Bytes) (h : ∀ x ∈ l, x = 0) : fromLeNat l = 0 := by
  induction l with
  | nil => rfl
  | cons b rest ih =>
    have hb : b = 0 := h b (by simp)
    simp [fromLeNat, hb, ih fun x hx => h x (by simp [hx])]

theorem all_beq_zero_iff (b : Bytes) : b.all (· == 0) = true ↔ ∀ x ∈ b, x = 0 := by
  simp [List.all_eq_true]

/-- A `G1Affine` value that arkworks can actually produce: either the
canonical point at infinity, or a finite point on the curve. -/
def validG1 (p : G1Affine) : Prop :=
  (p.infinity = true ∧ p = G1Affine.zero) ∨
  (p.infinity = false ∧ onCurveG1 p.x p.y = true)

/-- A `G2Affine` value that arkworks can actually produce: either the
canonical point at infinity, or a finite point on the curve and in the
order-r subgroup. -/
def validG2 (p : G2Affine) : Prop :=
  (p.infinity = true ∧ p = G2Affine.zero) ∨
  (p.infinity = false ∧ onCurveG2 p.x p.y = true ∧ inSubgroupG2 p.x p.y = true)

/-- Well-formed 64-byte G1 encoding: exact size, byte values, and (unless
it is the all-zero infinity encoding) canonical coordinates of an
on-curve point. -/
def wfG1Bytes (b : Bytes) : Prop :=
  b.length = 64 ∧ (∀ x ∈ b, x < 256) ∧
  (b.all (· == 0) = false →
    fromLeNat (b.take 32).reverse < pBN ∧ fromLeNat (b.drop 32).reverse < pBN ∧
    onCurveG1 ((fromLeNat (b.take 32).reverse : Nat) : Fq)
      ((fromLeNat (b.drop 32).reverse : Nat) : Fq) = true)

/-- Well-formed 128-byte G2 encoding, analogous to `wfG1Bytes` with the
subgroup condition included. -/
def wfG2Bytes (b : Bytes) : Prop :=
  b.length = 128 ∧ (∀ x ∈ b, x < 256) ∧
  (b.all (· == 0) = false →
    fromLeNat (b.take 32).reverse < pBN ∧
    fromLeNat ((b.drop 32).take 32).reverse < pBN ∧
    fromLeNat ((b.drop 64).take 32).reverse < pBN ∧
    fromLeNat (b.drop 96).reverse < pBN ∧
    (onCurveG2
      (((fromLeNat (b.take 32).reverse : Nat) : Fq),
        ((fromLeNat ((b.drop 32).take 32).reverse : Nat) : Fq))
      (((fromLeNat ((b.drop 64).take 32).reverse : Nat) : Fq),
        ((fromLeNat (b.drop 96).reverse : Nat) : Fq)) &&
     inSubgroupG2
      (((fromLeNat (b.take 32).reverse : Nat) : Fq),
        ((fromLeNat ((b.drop 32).take 32).reverse : Nat) : Fq))
      (((fromLeNat ((b.drop 64).take 32).reverse : Nat) : Fq),
        ((fromLeNat (b.drop 96).reverse : Nat) : Fq))) = true)

theorem fq_to_be_all_zero (x : Fq) (h : ∀ i ∈ fq_to_be_bytes x, i = 0) : x = 0 := by
  have hval : x.val < 256 ^ 32 := lt_trans (ZMod.val_lt x) pBN_lt_pow
  have hz : fromLeNat (natToBytesLE 32 x.val) = 0 := by
    apply fromLe_eq_zero
    intro i hi
    exact h i (by simpa [fq_to_be_bytes, List.mem_reverse] using hi)
  have : x.val = 0 := by rw [fromLe_natToBytesLE 32 x.val hval] at hz; exact hz
  have := congrArg (fun v => ((v : Nat) : Fq)) this
  simpa [ZMod.natCast_rightInverse x] using this

theorem g1_encode_not_all_zero (p : G1Affine) (hinf : p.infinity = false)
    (hcurve : onCurveG1 p.x p.y = true) : (g1_to_gnark p).all (· == 0) = false := by
  by_contra hne
  have hall : (g1_to_gnark p).all (· == 0) = true := by
    cases h : (g1_to_gnark p).all (· == 0) with
    | true => rfl
    | false => exact absurd h hne
  rw [all_beq_zero_iff] at hall
  simp only [g1_to_gnark, hinf, if_neg Bool.false_ne_true] at hall
  have hx : p.x = 0 := fq_to_be_all_zero _ fun i hi => hall i (List.mem_append_left _ hi)
  have hy : p.y = 0 := fq_to_be_all_zero _ fun i hi => hall i (List.mem_append_right _ hi)
  rw [hx, hy] at hcurve
  exact absurd hcurve (by decide)

theorem g1_point_roundtrip (p : G1Affine) (h : validG1 p) :
    g1_from_gnark (g1_to_gnark p) = Except.ok p := by
  rcases h with ⟨hinf, hzero⟩ | ⟨hinf, hcurve⟩
  · subst hzero
    have : (g1_to_gnark G1Affine.zero).all (· == 0) = true := by decide
    simp [g1_from_gnark, this]
  · have hnz := g1_encode_not_all_zero p hinf hcurve
    have henc : g1_to_gnark p = fq_to_be_bytes p.x ++ fq_to_be_bytes p.y := by
      simp [g1_to_gnark, hinf]
    have htake : (g1_to_gnark p).take 32 = fq_to_be_bytes p.x := by
      rw [henc, List.take_left' (fq_to_be_bytes_length p.x)]
    have hdrop : (g1_to_gnark p).drop 32 = fq_to_be_bytes p.y := by
      rw [henc, List.drop_left' (fq_to_be_bytes_length p.x)]
    have hdec : p = ⟨p.x, p.y, false⟩ := by
      cases p with
      | mk x y inf => simpa using hinf
    rw [g1_from_gnark, hnz]
    simp only [Bool.false_eq_true, if_false, htake, hdrop, fq_roundtrip,
      bind, Except.bind, hcurve, if_true]
    exact congrArg Except.ok hdec.symm

theorem g1_bytes_roundtrip (b : Bytes) (h : wfG1Bytes b) :
    Except.map g1_to_gnark (g1_from_gnark b) = Except.ok b := by
  obtain ⟨hlen, hlt, hcan⟩ := h
  cases hz : b.all (· == 0) with
  | true =>
    have hb : b = List.replicate 64 0 := by
      rw [List.eq_replicate_iff]
      exact ⟨hlen, (all_beq_zero_iff b).mp hz⟩
    simp [g1_from_gnark, hz, Except.map, g1_to_gnark, G1Affine.zero, hb]
  | false =>
    obtain ⟨hx, hy, hcurve⟩ := hcan hz
    have htlen : (b.take 32).length = 32 := by simp [hlen]
    have hdlen : (b.drop 32).length = 32 := by simp [hlen]
    have hxdec : fq_from_be_bytes (b.take 32) =
        Except.ok ((fromLeNat (b.take 32).reverse : Nat) : Fq) := by
      simp [fq_from_be_bytes, htlen]
    have hydec : fq_from_be_bytes (b.drop 32) =
        Except.ok ((fromLeNat (b.drop 32).reverse : Nat) : Fq) := by
      simp [fq_from_be_bytes, hdlen]
    rw [g1_from_gnark, hz]
    simp only [Bool.false_eq_true, if_false, hxdec, hydec, bind, Except.bind, hcurve, if_true]
    simp only [Except.map, g1_to_gnark, if_neg Bool.false_ne_true]
    rw [fq_to_be_of_cast _ hx, fq_to_be_of_cast _ hy,
      natToBytesLE_fromLe_reverse _ htlen (fun i hi => hlt i (List.mem_of_mem_take hi)),
      natToBytesLE_fromLe_reverse _ hdlen (fun i hi => hlt i (List.mem_of_mem_drop hi)),
      List.take_append_drop]

theorem chunks4_recompose (b : Bytes) :
    b.take 32 ++ (b.drop 32).take 32 ++ (b.drop 64).take 32 ++ b.drop 96 = b := by
  have hdd64 : (b.drop 32).drop 32 = b.drop 64 := by
    rw [List.drop_drop]
  have hdd96 : (b.drop 64).drop 32 = b.drop 96 := by
    rw [List.drop_drop]
  calc b.take 32 ++ (b.drop 32).take 32 ++ (b.drop 64).take 32 ++ b.drop 96
      = b.take 32 ++ ((b.drop 32).take 32 ++ ((b.drop 64).take 32 ++ b.drop 96)) := by
        simp [List.append_assoc]
    _ = b := by
        rw [← hdd96, List.take_append_drop, ← hdd64, List.take_append_drop,
          List.take_append_drop]

theorem g2_encode_not_all_zero (p : G2Affine) (hinf : p.infinity = false)
    (hcurve : onCurveG2 p.x p.y = true) : (g2_to_gnark p).all (· == 0) = false := by
  by_contra hne
  have hall : (g2_to_gnark p).all (· == 0) = true := by
    cases h : (g2_to_gnark p).all (· == 0) with
    | true => rfl
    | false => exact absurd h hne
  rw [all_beq_zero_iff] at hall
  simp only [g2_to_gnark, hinf, if_neg Bool.false_ne_true, List.mem_append] at hall
  have hx0 : p.x.1 = 0 := fq_to_be_all_zero _ fun i hi => hall i (by tauto)
  have hx1 : p.x.2 = 0 := fq_to_be_all_zero _ fun i hi => hall i (by tauto)
  have hy0 : p.y.1 = 0 := fq_to_be_all_zero _ fun i hi => hall i (by tauto)
  have hy1 : p.y.2 = 0 := fq_to_be_all_zero _ fun i hi => hall i (by tauto)
  have hxy : p.x = ((0 : Fq), (0 : Fq)) ∧ p.y = ((0 : Fq), (0 : Fq)) := by
    constructor
    · exact Prod.ext hx0 hx1
    · exact Prod.ext hy0 hy1
  rw [hxy.1, hxy.2] at hcurve
  exact absurd hcurve (by decide)

theorem g2_point_roundtrip (p : G2Affine) (h : validG2 p) :
    g2_from_gnark (g2_to_gnark p) = Except.ok p := by
  rcases h with ⟨hinf, hzero⟩ | ⟨hinf, hcurve, hsub⟩
  · subst hzero
    have : (g2_to_gnark G2Affine.zero).all (· == 0) = true := by decide
    simp [g2_from_gnark, this]
  · have hnz := g2_encode_not_all_zero p hinf hcurve
    have henc : g2_to_gnark p = fq_to_be_bytes p.x.1 ++
        (fq_to_be_bytes p.x.2 ++ (fq_to_be_bytes p.y.1 ++ fq_to_be_bytes p.y.2)) := by
      simp [g2_to_gnark, hinf]
    have h0 : (g2_to_gnark p).take 32 = fq_to_be_bytes p.x.1 := by
      rw [henc, List.take_left' (fq_to_be_bytes_length _)]
    have hd32 : (g2_to_gnark p).drop 32 =
        fq_to_be_bytes p.x.2 ++ (fq_to_be_bytes p.y.1 ++ fq_to_be_bytes p.y.2) := by
      rw [henc, List.drop_left' (fq_to_be_bytes_length _)]
    have h1 : ((g2_to_gnark p).drop 32).take 32 = fq_to_be_bytes p.x.2 := by
      rw [hd32, List.take_left' (fq_to_be_bytes_length _)]
    have hd64 : (g2_to_gnark p).drop 64 = fq_to_be_bytes p.y.1 ++ fq_to_be_bytes p.y.2 := by
      have : (64 : Nat) = 32 + 32 := by norm_num
      rw [this, ← List.drop_drop, hd32, List.drop_left' (fq_to_be_bytes_length _)]
    have h2 : ((g2_to_gnark p).drop 64).take 32 = fq_to_be_bytes p.y.1 := by
      rw [hd64, List.take_left' (fq_to_be_bytes_length _)]
    have h3 : (g2_to_gnark p).drop 96 = fq_to_be_bytes p.y.2 := by
      have : (96 : Nat) = 64 + 32 := by norm_num
      rw [this, ← List.drop_drop, hd64, List.drop_left' (fq_to_be_bytes_length _)]
    have hdec : p = ⟨p.x, p.y, false⟩ := by
      cases p with
      | mk x y inf => simpa using hinf
    rw [g2_from_gnark, hnz]
    simp only [Bool.false_eq_true, if_false, h0, h1, h2, h3, fq_roundtrip,
      bind, Except.bind]
    have hc : (onCurveG2 (p.x.1, p.x.2) (p.y.1, p.y.2) &&
        inSubgroupG2 (p.x.1, p.x.2) (p.y.1, p.y.2)) = true := by
      simp only [Prod.mk.eta]
      rw [hcurve, hsub]
      rfl
    rw [hc]
    simp only [if_true, Prod.mk.eta]
    exact congrArg Except.ok hdec.symm

theorem g2_bytes_roundtrip (b : Bytes) (h : wfG2Bytes b) :
    Except.map g2_to_gnark (g2_from_gnark b) = Except.ok b := by
  obtain ⟨hlen, hlt, hcan⟩ := h
  cases hz : b.all (· == 0) with
  | true =>
    have hb : b = List.replicate 128 0 := by
      rw [List.eq_replicate_iff]
      exact ⟨hlen, (all_beq_zero_iff b).mp hz⟩
    simp [g2_from_gnark, hz, Except.map, g2_to_gnark, G2Affine.zero, hb]
  | false =>
    obtain ⟨hv0, hv1, hv2, hv3, hchk⟩ := hcan hz
    have hl0 : (b.take 32).length = 32 := by simp [hlen]
    have hl1 : ((b.drop 32).take 32).length = 32 := by simp [hlen]
    have hl2 : ((b.drop 64).take 32).length = 32 := by simp [hlen]
    have hl3 : (b.drop 96).length = 32 := by simp [hlen]
    have hdec0 : fq_from_be_bytes (b.take 32) =
        Except.ok ((fromLeNat (b.take 32).reverse : Nat) : Fq) := by
      simp [fq_from_be_bytes, hl0]
    have hdec1 : fq_from_be_bytes ((b.drop 32).take 32) =
        Except.ok ((fromLeNat ((b.drop 32).take 32).reverse : Nat) : Fq) := by
      simp [fq_from_be_bytes, hl1]
    have hdec2 : fq_from_be_bytes ((b.drop 64).take 32) =
        Except.ok ((fromLeNat ((b.drop 64).take 32).reverse : Nat) : Fq) := by
      simp [fq_from_be_bytes, hl2]
    have hdec3 : fq_from_be_bytes (b.drop 96) =
        Except.ok ((fromLeNat (b.drop 96).reverse : Nat) : Fq) := by
      simp [fq_from_be_bytes, hl3]
    rw [g2_from_gnark, hz]
    simp only [Bool.false_eq_true, if_false, hdec0, hdec1, hdec2, hdec3,
      bind, Except.bind, hchk, if_true]
    simp only [Except.map, g2_to_gnark, if_neg Bool.false_ne_true]
    rw [fq_to_be_of_cast _ hv0, fq_to_be_of_cast _ hv1, fq_to_be_of_cast _ hv2,
      fq_to_be_of_cast _ hv3,
      natToBytesLE_fromLe_reverse _ hl0 (fun i hi => hlt i (List.mem_of_mem_take hi)),
      natToBytesLE_fromLe_reverse _ hl1
        (fun i hi => hlt i (List.mem_of_mem_drop (List.mem_of_mem_take hi))),
      natToBytesLE_fromLe_reverse _ hl2
        (fun i hi => hlt i (List.mem_of_mem_drop (List.mem_of_mem_take hi))),
      natToBytesLE_fromLe_reverse _ hl3 (fun i hi => hlt i (List.mem_of_mem_drop hi))]
    exact congrArg Except.ok (chunks4_recompose b)

theorem fr_bytes_roundtrip (b : Bytes) (hlen : b.length = 32) (hlt : ∀ x ∈ b, x < 256)
    (hv : fromLeNat b.reverse < rBN) :
    Except.map fr_to_be_bytes (fr_from_be_bytes b) = Except.ok b := by
  have hdec : fr_from_be_bytes b = Except.ok ((fromLeNat b.reverse : Nat) : Fr) := by
    simp [fr_from_be_bytes, hlen]
  rw [hdec]
  simp only [Except.map]
  rw [fr_to_be_of_cast _ hv, natToBytesLE_fromLe_reverse _ hlen hlt]

/-- C5: the gnark-format codecs are exact inverses — decoding an encoded
valid G1 point, G2 point (the point at infinity included) or scalar field
element returns the original value, and encoding a decoded well-formed
byte string of the exact fixed size returns the original bytes. -/
theorem c5_gnark_codec_roundtrips :
    (∀ p : G1Affine, validG1 p → g1_from_gnark (g1_to_gnark p) = Except.ok p) ∧
    (∀ p : G2Affine, validG2 p → g2_from_gnark (g2_to_gnark p) = Except.ok p) ∧
    (∀ f : Fr, fr_from_be_bytes (fr_to_be_bytes f) = Except.ok f) ∧
    (∀ b : Bytes, wfG1Bytes b → Except.map g1_to_gnark (g1_from_gnark b) = Except.ok b) ∧
    (∀ b : Bytes, wfG2Bytes b → Except.map g2_to_gnark (g2_from_gnark b) = Except.ok b) ∧
    (∀ b : Bytes, b.length = 32 → (∀ x ∈ b, x < 256) → fromLeNat b.reverse < rBN →
      Except.map fr_to_be_bytes (fr_from_be_bytes b) = Except.ok b) :=
  ⟨g1_point_roundtrip, g2_point_roundtrip, fr_roundtrip,
   g1_bytes_roundtrip, g2_bytes_roundtrip, fr_bytes_roundtrip⟩

/-- Witness for C5 at concrete inputs: both points at infinity, the zero
scalar, and the three all-zero well-formed encodings. -/
theorem c5_gnark_codec_roundtrips_witness :
    g1_from_gnark (g1_to_gnark G1Affine.zero) = Except.ok G1Affine.zero ∧
    g2_from_gnark (g2_to_gnark G2Affine.zero) = Except.ok G2Affine.zero ∧
    fr_from_be_bytes (fr_to_be_bytes 0) = Except.ok 0 ∧
    Except.map g1_to_gnark (g1_from_gnark (List.replicate 64 0)) =
      Except.ok (List.replicate 64 0) ∧
    Except.map g2_to_gnark (g2_from_gnark (List.replicate 128 0)) =
      Except.ok (List.replicate 128 0) ∧
    Except.map fr_to_be_bytes (fr_from_be_bytes (List.replicate 32 0)) =
      Except.ok (List.replicate 32 0) :=
  ⟨c5_gnark_codec_roundtrips.1 _ (Or.inl ⟨rfl, rfl⟩),
   c5_gnark_codec_roundtrips.2.1 _ (Or.inl ⟨rfl, rfl⟩),
   c5_gnark_codec_roundtrips.2.2.1 0,
   c5_gnark_codec_roundtrips.2.2.2.1 _
     ⟨by decide, by decide, fun h => absurd h (by decide)⟩,
   c5_gnark_codec_roundtrips.2.2.2.2.1 _
     ⟨by decide, by decide, fun h => absurd h (by decide)⟩,
   c5_gnark_codec_roundtrips.2.2.2.2.2 _ (by decide) (by decide) (by decide)⟩

/-! ## verifier.rs: the on-chain Groth16 verifier

Source: `packages/solana-contracts/programs/izi-noir/src/verifier.rs` and
`state.rs`. The three Solana BN254 syscalls are abstracted as a `Host`
capability record taking the same concatenated byte input the syscalls
take; each embedded function additionally returns the number of host
calls it performed, so that "no curve arithmetic attempted" is a provable
statement. -/

/-- Error codes of `VerifierError` (solana error.rs). -/
inductive VerifierError where
  | ProofVerificationFailed
  | InvalidPublicInputsCount
  | TooManyPublicInputs
  | InvalidProofSize
  | InvalidVerifyingKey
  | G1MulFailed
  | G1AddFailed
  | PairingFailed
  | InvalidG1Point
  | InvalidG2Point
  | VkAccountTooSmall
deriving DecidableEq, Repr

/-- The host's three primitive curve operations
(`alt_bn128_g1_multiplication_be`, `alt_bn128_g1_addition_be`,
`alt_bn128_pairing_be`), each on a single concatenated byte slice, with
`none` modelling a syscall error. -/
structure Host where
  g1Mul : Bytes → Option Bytes
  g1Add : Bytes → Option Bytes
  pairing : Bytes → Option Bytes

/-- `VerifyingKeyAccount` (state.rs) without the authority, which the
verifier never reads. -/
structure VerifyingKeyAccount where
  nr_pubinputs : Nat
  alpha_g1 : Bytes
  beta_g2 : Bytes
  gamma_g2 : Bytes
  delta_g2 : Bytes
  k : List Bytes

/-- `Groth16Proof` (state.rs): the A, B, C elements. -/
structure Groth16Proof where
  a : Bytes
  b : Bytes
  c : Bytes

/-- The byte constant for −1 in the BN254 scalar field used by
`negate_g1` (r − 1, big-endian). -/
def negOneBytes : Bytes :=
  [0x30, 0x64, 0x4e, 0x72, 0xe1, 0x31, 0xa0, 0x29,
   0xb8, 0x50, 0x45, 0xb6, 0x81, 0x81, 0x58, 0x5d,
   0x28, 0x33, 0xe8, 0x48, 0x79, 0xb9, 0x70, 0x91,
   0x43, 0xe1, 0xf5, 0x93, 0xf0, 0x00, 0x00, 0x00]

/-- `negate_g1`: scalar-multiply by r − 1 through the host; the
`try_into` re-check of the 64-byte result length is kept. Returns the
result together with the number of host calls (always one). -/
def negate_g1 (h : Host) (point : Bytes) : Except VerifierError Bytes × Nat :=
  match h.g1Mul (point ++ negOneBytes) with
  | none => (.error .G1MulFailed, 1)
  | some r => (if r.length = 64 then .ok r else .error .G1MulFailed, 1)

/-- `Fq::from_be_bytes_mod_order` as used by `g2_from_bytes`. -/
def fqFromBeModOrder (b : Bytes) : Fq := ((fromLeNat b.reverse : Nat) : Fq)

/-- `negate_g2`: decode the four big-endian Fq limbs (`g2_from_bytes`,
which always sets `infinity: false`), negate the y-coordinate's two
components (`G2Affine::neg`), and re-encode (`g2_to_bytes`; the infinity
branch is dead because the flag is always false). The Rust `Result` is
always `Ok`, so the embedding is total and makes no host call. -/
def negate_g2 (b : Bytes) : Bytes :=
  (natToBytesLE 32 (fqFromBeModOrder (b.take 32)).val).reverse ++
  (natToBytesLE 32 (fqFromBeModOrder ((b.drop 32).take 32)).val).reverse ++
  (natToBytesLE 32 (-(fqFromBeModOrder ((b.drop 64).take 32))).val).reverse ++
  (natToBytesLE 32 (-(fqFromBeModOrder (b.drop 96))).val).reverse

/-- Loop body of `prepare_inputs`: for input i, scalar-multiply k[i+1] by
the input and add the result to the accumulator (`[mul_result, acc]`
concatenation order), re-checking the 64-byte length of the sum. -/
def prepLoop (h : Host) (k : List Bytes) (inputs : List Bytes) (i : Nat) (acc : Bytes) :
    Except VerifierError Bytes × Nat :=
  match inputs with
  | [] => (.ok acc, 0)
  | input :: rest =>
    match h.g1Mul (k.getD (i + 1) [] ++ input) with
    | none => (.error .G1MulFailed, 1)
    | some m =>
      match h.g1Add (m ++ acc) with
      | none => (.error .G1AddFailed, 2)
      | some s =>
        if s.length = 64 then
          let r := prepLoop h k rest (i + 1) s
          (r.1, r.2 + 2)
        else (.error .G1AddFailed, 2)

/-- `prepare_inputs`: K_x = k[0] + Σ input_i · k[i+1], accumulated left
to right. -/
def prepare_inputs (h : Host) (vk : VerifyingKeyAccount) (inputs : List Bytes) :
    Except VerifierError Bytes × Nat :=
  prepLoop h vk.k inputs 0 (vk.k.getD 0 [])

/-- `verify_groth16`: count check, prepared inputs, negations, then the
pairing-product check over `A ‖ B ‖ -α ‖ β ‖ K_x ‖ -γ ‖ C ‖ -δ`,
accepting iff byte 31 of the host result is 1. -/
def verify_groth16 (h : Host) (vk : VerifyingKeyAccount) (proof : Groth16Proof)
    (public_inputs : List Bytes) : Except VerifierError Unit × Nat :=
  if public_inputs.length ≠ vk.nr_pubinputs then (.error .InvalidPublicInputsCount, 0)
  else
    let p := prepare_inputs h vk public_inputs
    match p.1 with
    | .error e => (.error e, p.2)
    | .ok kx =>
      let ng := negate_g1 h vk.alpha_g1
      match ng.1 with
      | .error e => (.error e, p.2 + ng.2)
      | .ok alphaNeg =>
        let gammaNeg := negate_g2 vk.gamma_g2
        let deltaNeg := negate_g2 vk.delta_g2
        match h.pairing (proof.a ++ proof.b ++ alphaNeg ++ vk.beta_g2 ++ kx ++
            gammaNeg ++ proof.c ++ deltaNeg) with
        | none => (.error .PairingFailed, p.2 + ng.2 + 1)
        | some res =>
          (if res.getD 31 0 = 1 then .ok () else .error .ProofVerificationFailed,
           p.2 + ng.2 + 1)

/-! ### C1: the spec-side description of `verify_groth16`

The following definitions follow the words of the specification (§4.5)
and of claim C1, to be compared with the embedding above. -/

/-- Spec wording: the scalar-field group order minus one, as 32
big-endian bytes. -/
def c1SpecNegOne : Bytes := (natToBytesLE 32 (rBN - 1)).reverse

/-- Spec wording: Kx starts from k[0] and, for each input i in index
order from left to right, adds input_i · k[i+1]. -/
def c1SpecKx (h : Host) (k : List Bytes) (inputs : List Bytes) :
    Except VerifierError Bytes :=
  (inputs.enum).foldlM (fun acc p =>
    match h.g1Mul (k.getD (p.1 + 1) [] ++ p.2) with
    | none => .error .G1MulFailed
    | some m =>
      match h.g1Add (m ++ acc) with
      | none => .error .G1AddFailed
      | some s => .ok s) (k.getD 0 [])

/-- Spec wording of the whole check: compute Kx, negate α by
scalar-multiplying by (group order − 1), negate γ and δ by negating the
y-coordinate components, concatenate `[A, B, -α, β, Kx, -γ, C, -δ]`,
invoke the pairing-product check, and accept exactly when the
identity-indicator byte equals 1. -/
def c1SpecVerify (h : Host) (vk : VerifyingKeyAccount) (proof : Groth16Proof)
    (inputs : List Bytes) : Except VerifierError Unit :=
  match c1SpecKx h vk.k inputs with
  | .error e => .error e
  | .ok kx =>
    match h.g1Mul (vk.alpha_g1 ++ c1SpecNegOne) with
    | none => .error .G1MulFailed
    | some alphaNeg =>
      match h.pairing (proof.a ++ proof.b ++ alphaNeg ++ vk.beta_g2 ++ kx ++
          negate_g2 vk.gamma_g2 ++ proof.c ++ negate_g2 vk.delta_g2) with
      | none => .error .PairingFailed
      | some res =>
        if res.getD 31 0 = 1 then .ok () else .error .ProofVerificationFailed

theorem c1SpecNegOne_eq : c1SpecNegOne = negOneBytes := by decide

theorem prepLoop_spec (h : Host)
    (hAdd : ∀ x r, h.g1Add x = some r → r.length = 64)
    (k : List Bytes) (inputs : List Bytes) (i : Nat) (acc : Bytes) :
    (prepLoop h k inputs i acc).1 =
      (List.enumFrom i inputs).foldlM (fun acc p =>
        match h.g1Mul (k.getD (p.1 + 1) [] ++ p.2) with
        | none => .error .G1MulFailed
        | some m =>
          match h.g1Add (m ++ acc) with
          | none => .error .G1AddFailed
          | some s => .ok s) acc := by
  induction inputs generalizing i acc with
  | nil => rfl
  | cons input rest ih =>
    rw [prepLoop, List.enumFrom, List.foldlM_cons]
    cases hm : h.g1Mul (k.getD (i + 1) [] ++ input) with
    | none => simp only [hm]; rfl
    | some m =>
      cases ha : h.g1Add (m ++ acc) with
      | none => simp only [hm, ha]; rfl
      | some s =>
        simp only [hm, ha, if_pos (hAdd _ _ ha)]
        exact ih (i + 1) s

/-- C1: on a matching public-input count, and for any host whose scalar
multiplication and addition return 64-byte points when they succeed,
`verify_groth16` behaves exactly as the specification's description
`c1SpecVerify`: Kx is the left-to-right fold pairing input i with
k[i+1], α is negated via the scalar (group order − 1), γ and δ via
y-negation, the pairing is invoked on `[A, B, -α, β, Kx, -γ, C, -δ]`,
and the call accepts exactly when the indicator byte is 1. -/
theorem c1_verify_groth16_matches_spec (h : Host) (vk : VerifyingKeyAccount)
    (proof : Groth16Proof) (inputs : List Bytes)
    (hMul : ∀ x r, h.g1Mul x = some r → r.length = 64)
    (hAdd : ∀ x r, h.g1Add x = some r → r.length = 64)
    (hLen : inputs.length = vk.nr_pubinputs) :
    (verify_groth16 h vk proof inputs).1 = c1SpecVerify h vk proof inputs := by
  have hne : ¬ inputs.length ≠ vk.nr_pubinputs := by simp [hLen]
  have hkx : (prepare_inputs h vk inputs).1 = c1SpecKx h vk.k inputs := by
    rw [prepare_inputs, c1SpecKx, List.enum, prepLoop_spec h hAdd]
  rw [verify_groth16, if_neg hne, c1SpecVerify]
  simp only [← hkx]
  cases hres : (prepare_inputs h vk inputs).1 with
  | error e => rfl
  | ok kx =>
    have hng : (negate_g1 h vk.alpha_g1).1 =
        match h.g1Mul (vk.alpha_g1 ++ c1SpecNegOne) with
        | none => .error .G1MulFailed
        | some r => .ok r := by
      rw [c1SpecNegOne_eq, negate_g1]
      cases hm : h.g1Mul (vk.alpha_g1 ++ negOneBytes) with
      | none => rfl
      | some r => simp [hMul _ _ hm]
    simp only [hng]
    cases hm : h.g1Mul (vk.alpha_g1 ++ c1SpecNegOne) with
    | none => rfl
    | some alphaNeg =>
      cases hp : h.pairing (proof.a ++ proof.b ++ alphaNeg ++ vk.beta_g2 ++ kx ++
          negate_g2 vk.gamma_g2 ++ proof.c ++ negate_g2 vk.delta_g2) with
      | none =>
        simp only [List.append_assoc] at hp
        simp [hp]
      | some res =>
        simp only [List.append_assoc] at hp
        simp [hp]

/-- C6: on a public-input count mismatch, `verify_groth16` returns the
invalid-public-inputs-count error and performs zero host calls — no
scalar multiplication, point addition, or pairing is attempted, for
every possible host. -/
theorem c6_count_mismatch_rejected_without_arithmetic (h : Host)
    (vk : VerifyingKeyAccount) (proof : Groth16Proof) (inputs : List Bytes)
    (hne : inputs.length ≠ vk.nr_pubinputs) :
    verify_groth16 h vk proof inputs = (.error .InvalidPublicInputsCount, 0) := by
  rw [verify_groth16, if_pos hne]

/-- A concrete host instance for witnesses: every operation succeeds with
a fixed 64-byte (respectively 32-byte) result. -/
def trivialHost : Host :=
  ⟨fun _ => some (List.replicate 64 0),
   fun _ => some (List.replicate 64 0),
   fun _ => some (List.replicate 31 0 ++ [1])⟩

/-- A concrete verifying-key account for witnesses: zero public inputs,
all-zero point encodings, k of length one. -/
def vkWitness : VerifyingKeyAccount :=
  ⟨0, List.replicate 64 0, List.replicate 128 0, List.replicate 128 0,
   List.replicate 128 0, [List.replicate 64 0]⟩

/-- A concrete proof for witnesses. -/
def proofWitness : Groth16Proof :=
  ⟨List.replicate 64 0, List.replicate 128 0, List.replicate 64 0⟩

/-- Witness for C1 at a concrete host, key, proof and empty input list. -/
theorem c1_verify_groth16_matches_spec_witness :
    (verify_groth16 trivialHost vkWitness proofWitness []).1 =
      c1SpecVerify trivialHost vkWitness proofWitness [] :=
  c1_verify_groth16_matches_spec trivialHost vkWitness proofWitness []
    (fun x r hr => by injection hr with h; rw [← h]; decide)
    (fun x r hr => by injection hr with h; rw [← h]; decide)
    rfl

/-- Witness for C6 at a concrete host, key, proof, and a one-element
input list against a zero-input key. -/
theorem c6_count_mismatch_rejected_without_arithmetic_witness :
    verify_groth16 trivialHost vkWitness proofWitness [List.replicate 32 0] =
      (.error .InvalidPublicInputsCount, 0) :=
  c6_count_mismatch_rejected_without_arithmetic trivialHost vkWitness proofWitness
    [List.replicate 32 0] (by decide)

/-! ## acir_to_r1cs.rs: `parse_field_element`

Hex strings are embedded as `List Char`. `str::trim` is modelled over the
ASCII whitespace characters (the only ones relevant here); `hex::decode`
fails exactly on odd length or a non-hex character. -/

/-- ASCII whitespace for the `trim` model. -/
def isWs (c : Char) : Bool := c == ' ' || c == '\t' || c == '\n' || c == '\r'

/-- `str::trim`: drop leading and trailing whitespace. -/
def trimChars (l : List Char) : List Char :=
  (((l.dropWhile isWs).reverse.dropWhile isWs)).reverse

/-- Value of one hex digit (both cases accepted), `none` otherwise. -/
def hexVal (c : Char) : Option Nat :=
  if 48 ≤ c.toNat ∧ c.toNat ≤ 57 then some (c.toNat - 48)
  else if 97 ≤ c.toNat ∧ c.toNat ≤ 102 then some (c.toNat - 87)
  else if 65 ≤ c.toNat ∧ c.toNat ≤ 70 then some (c.toNat - 55)
  else none

/-- `hex::decode`: fails on odd length or a non-hex character, otherwise
one byte per digit pair. -/
def hexDecode : List Char → Option Bytes
  | [] => some []
  | [_] => none
  | c1 :: c2 :: rest =>
    match hexVal c1, hexVal c2, hexDecode rest with
    | some h1, some h2, some b => some ((16 * h1 + h2) :: b)
    | _, _, _ => none

/-- `str::strip_prefix("0x")` with `unwrap_or(s)`. -/
def strip0x (t : List Char) : List Char :=
  if t.take 2 = ['0', 'x'] then t.drop 2 else t

/-- Big-endian placement of the decoded bytes into a 32-byte buffer:
keep the last `min(len, 32)` bytes, zero-fill the front, and reduce the
big-endian value into the scalar field (`from_be_bytes_mod_order`). -/
def parseBytesToFr (b : Bytes) : Fr :=
  ((beNat (List.replicate (32 - min b.length 32) 0 ++ b.drop (b.length - 32)) : Nat) : Fr)

/-- `parse_field_element`: trim, special-case the four zero spellings,
strip the `0x` prefix, try decoding with all leading `'0'` characters
removed, fall back to decoding the prefix-stripped string padded to even
length, then reduce the last ≤32 bytes into the field. The trailing Rust
`try_into` is infallible and not modelled. -/
def parse_field_element (s : List Char) : Except ArkErr Fr :=
  let t := trimChars s
  if t = [] ∨ t = ['0'] ∨ t = ['0', 'x', '0'] ∨ t = ['0', 'x', '0', '0'] then .ok 0
  else
    let hs := strip0x t
    match hexDecode (hs.dropWhile (· == '0')) with
    | some bytes => .ok (parseBytesToFr bytes)
    | none =>
      match hexDecode (if hs.length % 2 = 1 then '0' :: hs else hs) with
      | some bytes => .ok (parseBytesToFr bytes)
      | none => .error .ParseError

/-- Big-endian numeric value of a hex digit string. -/
def hexNat : List Char → Nat
  | [] => 0
  | c :: rest => (hexVal c).getD 0 * 16 ^ rest.length + hexNat rest

theorem hexVal_lt (c : Char) (v : Nat) (h : hexVal c = some v) : v < 16 := by
  unfold hexVal at h
  split at h
  · injection h with h; omega
  · split at h
    · injection h with h; omega
    · split at h
      · injection h with h; omega
      · exact absurd h (by simp)

theorem fromLe_append (a b : Bytes) :
    fromLeNat (a ++ b) = fromLeNat a + 256 ^ a.length * fromLeNat b := by
  induction a with
  | nil => simp [fromLeNat]
  | cons x rest ih =>
    simp only [List.cons_append, fromLeNat, List.append_eq, ih, List.length_cons]
    ring

theorem beNat_append (a b : Bytes) :
    beNat (a ++ b) = 256 ^ b.length * beNat a + beNat b := by
  simp only [beNat, List.reverse_append, fromLe_append, List.length_reverse]
  ring

theorem beNat_lt (l : Bytes) (h : ∀ x ∈ l, x < 256) : beNat l < 256 ^ l.length := by
  have := fromLe_lt l.reverse (fun x hx => h x (List.mem_reverse.mp hx))
  simpa [beNat] using this

theorem beNat_replicate_zero_append (k : Nat) (l : Bytes) :
    beNat (List.replicate k 0 ++ l) = beNat l := by
  rw [beNat_append]
  simp [beNat, fromLe_replicate_zero]

theorem beNat_drop (b : Bytes) (k : Nat) (h : ∀ x ∈ b, x < 256) :
    beNat (b.drop k) = beNat b % 256 ^ (b.drop k).length := by
  have hlt : beNat (b.drop k) < 256 ^ (b.drop k).length :=
    beNat_lt _ fun x hx => h x (List.mem_of_mem_drop hx)
  have key : beNat b = 256 ^ (b.drop k).length * beNat (b.take k) + beNat (b.drop k) := by
    conv_lhs => rw [← List.take_append_drop k b]
    rw [beNat_append]
  rw [key, Nat.mul_add_mod, Nat.mod_eq_of_lt hlt]

theorem parseBytesToFr_eq (b : Bytes) (h : ∀ x ∈ b, x < 256) :
    parseBytesToFr b = ((beNat b % 256 ^ 32 : Nat) : Fr) := by
  have hval : beNat (b.drop (b.length - 32)) = beNat b % 256 ^ 32 := by
    rcases le_or_lt b.length 32 with hle | hgt
    · have h0 : b.length - 32 = 0 := by omega
      rw [h0, List.drop_zero]
      have hlt : beNat b < 256 ^ b.length := beNat_lt b h
      rw [Nat.mod_eq_of_lt (lt_of_lt_of_le hlt (Nat.pow_le_pow_right (by norm_num) hle))]
    · rw [beNat_drop b _ h]
      have hd : (b.drop (b.length - 32)).length = 32 := by
        rw [List.length_drop]
        omega
      rw [hd]
  rw [parseBytesToFr, beNat_replicate_zero_append, hval]

theorem hexDecode_ok : ∀ cs : List Char, (∀ c ∈ cs, (hexVal c).isSome = true) →
    cs.length % 2 = 0 →
    ∃ b, hexDecode cs = some b ∧ b.length * 2 = cs.length ∧
      (∀ x ∈ b, x < 256) ∧ beNat b = hexNat cs
  | [], _, _ => ⟨[], rfl, rfl, by simp, rfl⟩
  | [_], _, heven => absurd heven (by simp)
  | c1 :: c2 :: rest, hhex, heven => by
    have h1 : (hexVal c1).isSome = true := hhex c1 (by simp)
    have h2 : (hexVal c2).isSome = true := hhex c2 (by simp)
    obtain ⟨v1, hv1⟩ := Option.isSome_iff_exists.mp h1
    obtain ⟨v2, hv2⟩ := Option.isSome_iff_exists.mp h2
    have heven' : rest.length % 2 = 0 := by
      simp only [List.length_cons] at heven
      omega
    obtain ⟨b, hb, hblen, hblt, hbval⟩ :=
      hexDecode_ok rest (fun c hc => hhex c (by simp [hc])) heven'
    refine ⟨(16 * v1 + v2) :: b, ?_, ?_, ?_, ?_⟩
    · simp [hexDecode, hv1, hv2, hb]
    · simp only [List.length_cons]
      omega
    · intro x hx
      rcases List.mem_cons.mp hx with h | h
      · have l1 := hexVal_lt c1 v1 hv1
        have l2 := hexVal_lt c2 v2 hv2
        omega
      · exact hblt x h
    · have hstep : beNat ((16 * v1 + v2) :: b) = 256 ^ b.length * (16 * v1 + v2) + beNat b := by
        have : (16 * v1 + v2) :: b = [16 * v1 + v2] ++ b := rfl
        rw [this, beNat_append]
        simp [beNat, fromLeNat]
      rw [hstep, hbval]
      simp only [hexNat, hv1, hv2, Option.getD_some, List.length_cons]
      have hexp : (256 : Nat) ^ b.length = 16 ^ rest.length := by
        rw [← hblen, show (256 : Nat) = 16 ^ 2 from rfl, ← pow_mul, Nat.mul_comm]
      rw [hexp, pow_succ]
      ring

theorem hexDecode_none_of_odd : ∀ cs : List Char, cs.length % 2 = 1 → hexDecode cs = none
  | [], h => absurd h (by simp)
  | [_], _ => rfl
  | c1 :: c2 :: rest, h => by
    have h' : rest.length % 2 = 1 := by
      simp only [List.length_cons] at h
      omega
    have hrec := hexDecode_none_of_odd rest h'
    cases hexVal c1 <;> cases hexVal c2 <;> simp [hexDecode, hrec]

theorem hexDecode_none_of_mem : ∀ (cs : List Char) (c : Char), c ∈ cs →
    hexVal c = none → hexDecode cs = none
  | [], c, hc, _ => absurd hc (by simp)
  | [_], _, _, _ => rfl
  | c1 :: c2 :: rest, c, hc, hnone => by
    rcases List.mem_cons.mp hc with h | h
    · subst h
      simp [hexDecode, hnone]
    · rcases List.mem_cons.mp h with h2 | h2
      · subst h2
        cases hexVal c1 <;> simp [hexDecode, hnone]
      · have hrec := hexDecode_none_of_mem rest c h2 hnone
        cases hexVal c1 <;> cases hexVal c2 <;> simp [hexDecode, hrec]

theorem hexNat_dropWhile_zero (cs : List Char) :
    hexNat (cs.dropWhile (· == '0')) = hexNat cs := by
  induction cs with
  | nil => rfl
  | cons c rest ih =>
    by_cases hc : c = '0'
    · subst hc
      rw [List.dropWhile_cons_of_pos (by simp), ih]
      have hz : hexVal '0' = some 0 := by decide
      simp [hexNat, hz]
    · rw [List.dropWhile_cons_of_neg (by simp [hc])]

theorem mem_dropWhile_of_ne (l : List Char) (c : Char) (hc : c ∈ l)
    (hne : (c == '0') = false) : c ∈ l.dropWhile (· == '0') := by
  induction l with
  | nil => cases hc
  | cons a rest ih =>
    by_cases ha : a = '0'
    · subst ha
      rw [List.dropWhile_cons_of_pos (by simp)]
      rcases List.mem_cons.mp hc with h | h
      · subst h
        simp at hne
      · exact ih h
    · rw [List.dropWhile_cons_of_neg (by simp [ha])]
      exact hc

theorem dropWhile_eq_self_of_not (p : Char → Bool) (l : List Char)
    (h : ∀ c ∈ l, p c = false) : l.dropWhile p = l := by
  cases l with
  | nil => rfl
  | cons a rest => simp [List.dropWhile, h a (by simp)]

theorem trimChars_id (l : List Char) (h : ∀ c ∈ l, isWs c = false) : trimChars l = l := by
  rw [trimChars, dropWhile_eq_self_of_not _ _ h,
    dropWhile_eq_self_of_not _ _ (fun c hc => h c (List.mem_reverse.mp hc)),
    List.reverse_reverse]

theorem isWs_false_of_hex (c : Char) (h : (hexVal c).isSome = true) : isWs c = false := by
  by_cases hws : isWs c = true
  · simp only [isWs, Bool.or_eq_true, beq_iff_eq] at hws
    rcases hws with ((h1 | h1) | h1) | h1 <;> subst h1 <;> exact absurd h (by decide)
  · simpa using hws

/-- C8 counterexample input: `0x01` followed by 64 zero digits — a
33-byte hex value 2^256. -/
def c8BigInput : List Char := '0' :: 'x' :: '0' :: '1' :: List.replicate 64 '0'

/-- Counterexample to C8 as stated: on a raw byte input exceeding 32
bytes (here 33 bytes, value 2^256), `parse_field_element` does not fail
with a parse error; it silently keeps only the last 32 bytes and returns
zero. -/
theorem c8_counterexample : parse_field_element c8BigInput = Except.ok 0 := by decide

/-- C8 (amended): the zero spellings and `0xff` parse as stated, every
even-length hex-digit payload after `0x` is accepted with its value
truncated to the last 32 bytes and then reduced modulo the scalar field
order (so values at or above the modulus are reduced, not rejected, and
inputs beyond 32 bytes are truncated, not rejected), and any non-hex
character after trimming and prefix stripping yields a parse error. -/
theorem c8_parse_field_element_amended :
    parse_field_element [] = Except.ok 0 ∧
    parse_field_element ['0'] = Except.ok 0 ∧
    parse_field_element ['0', 'x', '0'] = Except.ok 0 ∧
    parse_field_element ['0', 'x', '0', '0'] = Except.ok 0 ∧
    parse_field_element ['0', 'x', 'f', 'f'] = Except.ok 255 ∧
    (∀ cs : List Char, (∀ c ∈ cs, (hexVal c).isSome = true) → cs.length % 2 = 0 →
      parse_field_element ('0' :: 'x' :: cs) = Except.ok ((hexNat cs % 256 ^ 32 : Nat) : Fr)) ∧
    (∀ s : List Char,
      ¬(trimChars s = [] ∨ trimChars s = ['0'] ∨ trimChars s = ['0', 'x', '0'] ∨
        trimChars s = ['0', 'x', '0', '0']) →
      (∃ c ∈ strip0x (trimChars s), hexVal c = none) →
      parse_field_element s = Except.error ArkErr.ParseError) := by
  refine ⟨by decide, by decide, by decide, by decide, by decide, ?_, ?_⟩
  · intro cs hhex heven
    by_cases hsp : cs = ['0', '0']
    · subst hsp
      decide
    · have htrim : trimChars ('0' :: 'x' :: cs) = '0' :: 'x' :: cs := by
        apply trimChars_id
        intro c hc
        rcases List.mem_cons.mp hc with h | h
        · subst h; decide
        · rcases List.mem_cons.mp h with h2 | h2
          · subst h2; decide
          · exact isWs_false_of_hex c (hhex c h2)
      have hnotsp : ¬('0' :: 'x' :: cs = [] ∨ '0' :: 'x' :: cs = ['0'] ∨
          '0' :: 'x' :: cs = ['0', 'x', '0'] ∨ '0' :: 'x' :: cs = ['0', 'x', '0', '0']) := by
        simp only [not_or]
        refine ⟨by simp, by simp, ?_, ?_⟩
        · intro heq
          have hcs : cs = ['0'] := by simpa using heq
          rw [hcs] at heven
          simp at heven
        · intro heq
          exact hsp (by simpa using heq)
      have hstrip : strip0x ('0' :: 'x' :: cs) = cs := by simp [strip0x]
      simp only [parse_field_element, htrim, hstrip]
      rw [if_neg hnotsp]
      have hsub : ∀ c ∈ cs.dropWhile (· == '0'), (hexVal c).isSome = true :=
        fun c hc => hhex c ((List.dropWhile_sublist _).subset hc)
      rcases Nat.mod_two_eq_zero_or_one (cs.dropWhile (· == '0')).length with hpar | hpar
      · obtain ⟨b, hb, hblen, hblt, hbval⟩ := hexDecode_ok _ hsub hpar
        simp only [hb]
        rw [parseBytesToFr_eq b hblt, hbval, hexNat_dropWhile_zero]
      · have hnone : hexDecode (cs.dropWhile (· == '0')) = none :=
          hexDecode_none_of_odd _ hpar
        simp only [hnone]
        rw [if_neg (by omega : ¬ cs.length % 2 = 1)]
        obtain ⟨b, hb, hblen, hblt, hbval⟩ := hexDecode_ok cs hhex heven
        simp only [hb]
        rw [parseBytesToFr_eq b hblt, hbval]
  · intro s hns hex
    obtain ⟨c, hc, hnone⟩ := hex
    have hcne : (c == '0') = false := by
      by_cases h : c = '0'
      · subst h
        exact absurd hnone (by decide)
      · simp [h]
    have h1 : hexDecode ((strip0x (trimChars s)).dropWhile (· == '0')) = none :=
      hexDecode_none_of_mem _ c (mem_dropWhile_of_ne _ c hc hcne) hnone
    have h2 : hexDecode (if (strip0x (trimChars s)).length % 2 = 1 then
        '0' :: strip0x (trimChars s) else strip0x (trimChars s)) = none := by
      split
      · exact hexDecode_none_of_mem _ c (List.mem_cons_of_mem _ hc) hnone
      · exact hexDecode_none_of_mem _ c hc hnone
    simp only [parse_field_element]
    rw [if_neg hns]
    simp only [h1, h2]

/-- Witness for C8's amended general statements at concrete inputs:
the payload `ff` for the accepted case and the input `zz` for the
rejected case. -/
theorem c8_parse_field_element_amended_witness :
    parse_field_element ('0' :: 'x' :: ['f', 'f']) =
      Except.ok ((hexNat ['f', 'f'] % 256 ^ 32 : Nat) : Fr) ∧
    parse_field_element ['z', 'z'] = Except.error ArkErr.ParseError :=
  ⟨c8_parse_field_element_amended.2.2.2.2.2.1 ['f', 'f'] (by decide) (by decide),
   c8_parse_field_element_amended.2.2.2.2.2.2 ['z', 'z'] (by decide)
     ⟨'z', by decide, by decide⟩⟩

/-! ## acir_to_r1cs.rs: expressions, opcodes, and circuit conversion

Coefficients in the circuit IR are hex strings (`FieldElement = String`
in acir_types.rs) and are parsed by `parse_field_element`; R1CS
coefficients are field elements. -/

/-- `Expression` (acir_types.rs): linear terms, multiplication terms and
the constant, all coefficients as hex strings. -/
structure Expression where
  linear_combinations : List (List Char × Nat)
  mul_terms : List (List Char × Nat × Nat)
  q_c : List Char

/-- `R1csConstraint`: A · B = C as coefficient/witness-index lists. -/
structure R1csConstraint where
  a : List (Fr × Nat)
  b : List (Fr × Nat)
  c : List (Fr × Nat)
deriving DecidableEq, Repr

/-- `AcirR1cs`: the converter's output. -/
structure AcirR1cs where
  num_witnesses : Nat
  public_inputs : List Nat
  private_inputs : List Nat
  return_values : List Nat
  constraints : List R1csConstraint
deriving DecidableEq, Repr

/-- The per-term parsing loop shared by both `expression_to_r1cs` arms:
parse each linear coefficient in order, keeping the witness index. -/
def parseLinearTerms : List (List Char × Nat) → Except ArkErr (List (Fr × Nat))
  | [] => .ok []
  | (s, w) :: rest => do
    let c ← parse_field_element s
    let r ← parseLinearTerms rest
    .ok ((c, w) :: r)

/-- `expression_to_r1cs`: 0 multiplication terms emit
`(Σ linear + q_c)·w₀ = 0` (the constant pushed on witness 0 only when
non-zero); exactly 1 term `coeff·a·b` emits
`(coeff·a)·b = −(Σ linear + q_c)`; 2 or more terms fail with the
unsupported-opcode error. `q_c` is parsed before the classification. -/
def expression_to_r1cs (e : Expression) : Except ArkErr (List R1csConstraint) := do
  let qc ← parse_field_element e.q_c
  match e.mul_terms with
  | [] => do
    let lts ← parseLinearTerms e.linear_combinations
    .ok [⟨lts ++ (if qc = 0 then [] else [(qc, 0)]), [((1 : Fr), 0)], []⟩]
  | [(mc, aw, bw)] => do
    let mcF ← parse_field_element mc
    let lts ← parseLinearTerms e.linear_combinations
    .ok [⟨[(mcF, aw)], [((1 : Fr), bw)],
      lts.map (fun t => (-t.1, t.2)) ++ (if qc = 0 then [] else [(-qc, 0)])⟩]
  | _ :: _ :: _ => .error .UnsupportedOpcode

/-- `BlackBoxFuncCall` (acir_types.rs). The converter reads no payload
except pattern-matching the variant, so payloads are dropped apart from
`Range`'s input (whose fields the source binds and ignores). -/
inductive BlackBoxFuncCall where
  | range (witness : Nat) (numBits : Nat)
  | andOp
  | xorOp
  | sha256
  | blake2s
  | blake3
  | keccak256
  | keccakf1600
  | pedersenCommitment
  | pedersenHash
  | ecdsaSecp256k1
  | ecdsaSecp256r1
  | schnorrVerify
  | fixedBaseScalarMul
  | embeddedCurveAdd
  | recursiveAggregation
  | bigIntAdd
  | bigIntSub
  | bigIntMul
  | bigIntDiv
  | bigIntFromLeBytes
  | bigIntToLeBytes
  | poseidon2Permutation
  | sha256Compression
  | unknown

/-- `Opcode` (acir_types.rs). The converter ignores the payloads of
`MemoryOp`, `MemoryInit`, `BrilligCall` and `Call`, so they are dropped. -/
inductive Opcode where
  | assertZero (value : Expression)
  | blackBoxFuncCall (bb : BlackBoxFuncCall)
  | memoryOp
  | memoryInit
  | brilligCall
  | call

/-- `AcirCircuit` (acir_types.rs), with `public_parameters.witnesses` and
`return_values.witnesses` flattened to their index lists. -/
structure AcirCircuit where
  current_witness_index : Nat
  opcodes : List Opcode
  private_parameters : List Nat
  public_parameters : List Nat
  return_values : List Nat

/-- `convert_black_box`: `Range` pushes nothing and succeeds; every
other variant fails with the unsupported-opcode error. -/
def convert_black_box : BlackBoxFuncCall → Except ArkErr Unit
  | .range _ _ => .ok ()
  | _ => .error .UnsupportedOpcode

/-- The opcode loop of `convert_circuit`, accumulating emitted
constraints in encounter order. -/
def convertOpcodes : List Opcode → Except ArkErr (List R1csConstraint)
  | [] => .ok []
  | o :: rest =>
    match o with
    | .assertZero e => do
      let cs ← expression_to_r1cs e
      let r ← convertOpcodes rest
      .ok (cs ++ r)
    | .blackBoxFuncCall bb => do
      convert_black_box bb
      convertOpcodes rest
    | .memoryOp => convertOpcodes rest
    | .memoryInit => convertOpcodes rest
    | .brilligCall => convertOpcodes rest
    | .call => .error .UnsupportedOpcode

/-- `convert_circuit`: witness count is the declared index plus one, the
index lists are taken verbatim, and constraints come from the opcode
loop. -/
def convert_circuit (c : AcirCircuit) : Except ArkErr AcirR1cs := do
  let constraints ← convertOpcodes c.opcodes
  .ok ⟨c.current_witness_index + 1, c.public_parameters, c.private_parameters,
    c.return_values, constraints⟩

/-- C3: classification of an AssertZero expression by multiplication-term
count, given that the constant and the linear coefficients parse: 0 terms
emit exactly the single constraint (linear + constant)·w₀ = 0 with the
constant attached to witness 0 (omitted when zero, where it contributes
nothing); 1 term `coeff·a·b` emits exactly `(coeff·a)·b = −(linear +
constant)`; 2 or more terms fail with the unsupported-opcode error. -/
theorem c3_expression_to_r1cs_classification (e : Expression) (qc : Fr)
    (lts : List (Fr × Nat))
    (hqc : parse_field_element e.q_c = Except.ok qc)
    (hlin : parseLinearTerms e.linear_combinations = Except.ok lts) :
    (e.mul_terms = [] →
      expression_to_r1cs e = Except.ok
        [⟨lts ++ (if qc = 0 then [] else [(qc, 0)]), [((1 : Fr), 0)], []⟩]) ∧
    (∀ mc aw bw mcF, e.mul_terms = [(mc, aw, bw)] →
      parse_field_element mc = Except.ok mcF →
      expression_to_r1cs e = Except.ok
        [⟨[(mcF, aw)], [((1 : Fr), bw)],
          lts.map (fun t => (-t.1, t.2)) ++ (if qc = 0 then [] else [(-qc, 0)])⟩]) ∧
    (2 ≤ e.mul_terms.length →
      expression_to_r1cs e = Except.error ArkErr.UnsupportedOpcode) := by
  refine ⟨?_, ?_, ?_⟩
  · intro hmul
    simp [expression_to_r1cs, hqc, hmul, hlin, bind, Except.bind]
  · intro mc aw bw mcF hmul hmc
    simp [expression_to_r1cs, hqc, hmul, hmc, hlin, bind, Except.bind]
  · intro hlen
    match hmul : e.mul_terms with
    | [] => rw [hmul] at hlen; simp at hlen
    | [t] => rw [hmul] at hlen; simp at hlen
    | t1 :: t2 :: rest => simp [expression_to_r1cs, hqc, hmul, bind, Except.bind]

/-- A concrete 0-multiplication expression `2·w₁ + 5 = 0`. -/
def c3Expr0 : Expression := ⟨[(['0', 'x', '2'], 1)], [], ['0', 'x', '5']⟩

/-- A concrete 1-multiplication expression `3·w₂·w₃ + 2·w₁ + 5 = 0`. -/
def c3Expr1 : Expression :=
  ⟨[(['0', 'x', '2'], 1)], [(['0', 'x', '3'], 2, 3)], ['0', 'x', '5']⟩

/-- A concrete 2-multiplication expression. -/
def c3Expr2 : Expression :=
  ⟨[], [(['0', 'x', '3'], 2, 3), (['0', 'x', '3'], 4, 5)], ['0']⟩

/-- Witness for C3 at the three concrete expressions above. -/
theorem c3_expression_to_r1cs_classification_witness :
    expression_to_r1cs c3Expr0 = Except.ok
      [⟨[((2 : Fr), 1)] ++ (if (5 : Fr) = 0 then [] else [((5 : Fr), 0)]),
        [((1 : Fr), 0)], []⟩] ∧
    expression_to_r1cs c3Expr1 = Except.ok
      [⟨[((3 : Fr), 2)], [((1 : Fr), 3)],
        [((2 : Fr), 1)].map (fun t => (-t.1, t.2)) ++
          (if (5 : Fr) = 0 then [] else [(-(5 : Fr), 0)])⟩] ∧
    expression_to_r1cs c3Expr2 = Except.error ArkErr.UnsupportedOpcode :=
  ⟨(c3_expression_to_r1cs_classification c3Expr0 5 [((2 : Fr), 1)]
      (by decide) (by decide)).1 rfl,
   (c3_expression_to_r1cs_classification c3Expr1 5 [((2 : Fr), 1)]
      (by decide) (by decide)).2.1 ['0', 'x', '3'] 2 3 3 rfl (by decide),
   (c3_expression_to_r1cs_classification c3Expr2 0 []
      (by decide) rfl).2.2 (by decide)⟩

/-- The constraints an opcode contributes in the supported fragment:
those of a successfully converted AssertZero expression, nothing for
anything else. -/
def emittedConstraints (o : Opcode) : List R1csConstraint :=
  match o with
  | .assertZero e =>
    match expression_to_r1cs e with
    | .ok cs => cs
    | .error _ => []
  | _ => []

/-- The supported fragment of C7: AssertZero whose expression converts
(which by `expression_to_r1cs` requires at most one multiplication term
and parseable coefficients), Range black boxes, memory operations,
memory initialization, and Brillig calls. -/
def c7OkB (o : Opcode) : Bool :=
  match o with
  | .assertZero e =>
    match expression_to_r1cs e with
    | .ok _ => true
    | .error _ => false
  | .blackBoxFuncCall (.range _ _) => true
  | .blackBoxFuncCall _ => false
  | .memoryOp => true
  | .memoryInit => true
  | .brilligCall => true
  | .call => false

theorem convertOpcodes_supported (l : List Opcode) (h : ∀ o ∈ l, c7OkB o = true) :
    convertOpcodes l = Except.ok ((l.map emittedConstraints).flatten) := by
  induction l with
  | nil => rfl
  | cons o rest ih =>
    have ho : c7OkB o = true := h o (by simp)
    have hrest := ih fun x hx => h x (by simp [hx])
    cases o with
    | assertZero e =>
      cases he : expression_to_r1cs e with
      | error err => rw [c7OkB, he] at ho; exact absurd ho (by simp)
      | ok cs =>
        simp [convertOpcodes, he, hrest, emittedConstraints, bind, Except.bind]
    | blackBoxFuncCall bb =>
      have hbb : convert_black_box bb = Except.ok () := by
        cases bb <;> first
          | rfl
          | exact absurd ho (by decide)
      simp [convertOpcodes, hbb, hrest, emittedConstraints, bind, Except.bind]
    | memoryOp => simp [convertOpcodes, hrest, emittedConstraints]
    | memoryInit => simp [convertOpcodes, hrest, emittedConstraints]
    | brilligCall => simp [convertOpcodes, hrest, emittedConstraints]
    | call => rw [c7OkB] at ho; exact absurd ho (by simp)

/-- C7: a circuit whose opcodes are only convertible AssertZero, Range,
MemoryOp, MemoryInit, and BrilligCall converts successfully, and the
constraint list is exactly the concatenation, in opcode encounter order,
of the constraints emitted by the AssertZero opcodes — the other four
kinds emit none. -/
theorem c7_convert_circuit_supported (c : AcirCircuit)
    (h : ∀ o ∈ c.opcodes, c7OkB o = true) :
    convert_circuit c = Except.ok
      ⟨c.current_witness_index + 1, c.public_parameters, c.private_parameters,
        c.return_values, (c.opcodes.map emittedConstraints).flatten⟩ := by
  rw [convert_circuit, convertOpcodes_supported c.opcodes h]
  rfl

/-- A concrete circuit exercising every supported opcode kind. -/
def c7Circuit : AcirCircuit :=
  ⟨5, [.assertZero c3Expr0, .blackBoxFuncCall (.range 1 32), .memoryOp,
    .memoryInit, .brilligCall, .assertZero c3Expr1], [1, 2], [3], [3]⟩

/-- Witness for C7 at the concrete circuit. -/
theorem c7_convert_circuit_supported_witness :
    convert_circuit c7Circuit = Except.ok
      ⟨c7Circuit.current_witness_index + 1, c7Circuit.public_parameters,
        c7Circuit.private_parameters, c7Circuit.return_values,
        (c7Circuit.opcodes.map emittedConstraints).flatten⟩ :=
  c7_convert_circuit_supported c7Circuit (by decide)

/-! ## groth16.rs and the arkworks synthesizer semantics

`AcirCircuitSynthesizer::generate_constraints` (acir_to_r1cs.rs) is
repository code and is embedded below through its allocation and
linear-combination semantics. The ark-groth16 entry points it is passed
to are an external library; they are modelled from the spec (§4.3) as an
ideal proof system over those semantics. -/

/-- `WitnessMap`: a partial map from witness index to field element. -/
abbrev WitnessMap := Nat → Option Fr

/-- Which indices receive a variable in `generate_constraints`: index 0
(bound to `Variable::One`), every declared public index, and every other
index in `[1, num_witnesses)`. `build_lc` keeps exactly the terms whose
index is allocated. -/
def allocatedB (r : AcirR1cs) (i : Nat) : Bool :=
  i == 0 || r.public_inputs.contains i || (1 ≤ i && i < r.num_witnesses)

/-- The value bound to an allocated index: a declared public index reads
the witness map (it overwrites the constant-one binding even for index
0); otherwise index 0 is the constant one and any other index reads the
map. -/
def assignedValue (r : AcirR1cs) (w : WitnessMap) (i : Nat) : Option Fr :=
  if r.public_inputs.contains i then w i
  else if i == 0 then some 1
  else w i

/-- Proving-mode allocation succeeds iff every declared public index and
every other index in `[1, num_witnesses)` has a value in the map
(`SynthesisError::AssignmentMissing` otherwise). -/
def allocOk (r : AcirR1cs) (w : WitnessMap) : Bool :=
  r.public_inputs.all (fun i => (w i).isSome) &&
  (List.range r.num_witnesses).all
    (fun i => i == 0 || r.public_inputs.contains i || (w i).isSome)

/-- `build_lc` evaluated under the assignment: the sum over exactly
those terms whose index has an allocated variable. -/
def buildLcVal (r : AcirR1cs) (w : WitnessMap) (terms : List (Fr × Nat)) : Fr :=
  terms.foldl (fun acc t =>
    if allocatedB r t.2 then acc + t.1 * ((assignedValue r w t.2).getD 0) else acc) 0

/-- One enforced constraint A·B = C holds under the assignment. -/
def constraintHolds (r : AcirR1cs) (w : WitnessMap) (c : R1csConstraint) : Bool :=
  buildLcVal r w c.a * buildLcVal r w c.b == buildLcVal r w c.c

/-- All enforced constraints hold under the assignment. -/
def satisfiedB (r : AcirR1cs) (w : WitnessMap) : Bool :=
  r.constraints.all (constraintHolds r w)

/-- Modelled from the spec: the ark-groth16 proof object (external to
this repository) is idealized as a binding commitment to the circuit it
was synthesized from and to its allocated public values. -/
structure ProofModel where
  r1cs : AcirR1cs
  publics : List Fr
deriving DecidableEq, Repr

/-- Modelled from the spec: an ark-groth16 proving key, bound to the
circuit that `setup` received. -/
structure ProvingKeyModel where
  r1cs : AcirR1cs
deriving DecidableEq, Repr

/-- Modelled from the spec: an ark-groth16 verifying key, bound to the
circuit that `setup` received. -/
structure VerifyingKeyModel where
  r1cs : AcirR1cs
deriving DecidableEq, Repr

/-- `SetupResult` (groth16.rs). -/
structure SetupResult where
  proving_key : ProvingKeyModel
  verifying_key : VerifyingKeyModel
deriving DecidableEq, Repr

/-- `ProofResult` (groth16.rs). -/
structure ProofResult where
  proof : ProofModel
  public_inputs : List Fr
deriving DecidableEq, Repr

/-- Modelled from the spec: `Groth16::circuit_specific_setup` — in setup
mode the synthesizer's value closures are never evaluated, so setup
succeeds and returns keys bound to the circuit; its randomness is
irrelevant to the claims and not modelled. -/
def groth16Setup (r : AcirR1cs) : Except ArkErr SetupResult := .ok ⟨⟨r⟩, ⟨r⟩⟩

/-- Modelled from the spec: `Groth16::prove` runs the synthesizer —
allocation (failing with assignment-missing when a required value is
absent) and then constraint generation — and fails when the witness does
not satisfy the constraints; on success the proof commits to the
circuit and the allocated public values. The proving key's CRS is
idealized away (the repository only ever passes keys produced by
`setup` on the same circuit). -/
def arkGroth16Prove (r : AcirR1cs) (w : WitnessMap) : Except Unit ProofModel :=
  if allocOk r w = false then .error ()
  else if satisfiedB r w = false then .error ()
  else .ok ⟨r, r.public_inputs.map (fun i => (assignedValue r w i).getD 0)⟩

/-- The public-input re-extraction of `groth16::prove`: read the
declared public indices from the witness map in order, failing with
`MissingWitness(idx)` on an absent index. -/
def extractPublics (r : AcirR1cs) (w : WitnessMap) : Except ArkErr (List Fr) :=
  r.public_inputs.mapM (fun i =>
    match w i with
    | some v => Except.ok v
    | none => Except.error (ArkErr.MissingWitness i))

/-- `groth16::prove` (groth16.rs): run the ark prover with the cloned
witness, mapping every ark failure to `ProofError`, then re-extract the
public inputs from the witness map. -/
def prove (pk : ProvingKeyModel) (r : AcirR1cs) (w : WitnessMap) :
    Except ArkErr ProofResult :=
  match arkGroth16Prove r w with
  | .error _ => .error .ProofError
  | .ok proof =>
    match extractPublics r w with
    | .error e => .error e
    | .ok publics => .ok ⟨proof, publics⟩

/-- Modelled from the spec: `Groth16::verify_with_processed_vk` decides
whether the proof is consistent with the key's circuit and the supplied
public inputs; `false` is a normal outcome, not an error. -/
def groth16Verify (vk : VerifyingKeyModel) (proof : ProofModel)
    (publics : List Fr) : Except ArkErr Bool :=
  .ok (proof.r1cs == vk.r1cs && proof.publics == publics)

/-- The test circuit of groth16.rs (`create_test_r1cs`): w₁·w₂ = w₃ with
w₀ = 1, w₁, w₂ private and w₃ public. -/
def testR1cs : AcirR1cs :=
  ⟨4, [3], [1, 2], [3], [⟨[((1 : Fr), 1)], [((1 : Fr), 2)], [((1 : Fr), 3)]⟩]⟩

/-- The witness {0 ↦ 1, 1 ↦ 3, 2 ↦ 4, 3 ↦ 12}. -/
def testWitness : WitnessMap := fun i =>
  if i = 0 then some 1
  else if i = 1 then some 3
  else if i = 2 then some 4
  else if i = 3 then some 12
  else none

/-- C2: for the single-constraint circuit w₁·w₂ = w₃ and the witness
x = 3, y = 4, z = 12, running setup, then prove, then verify on the
produced proof and extracted public inputs returns true. -/
theorem c2_setup_prove_verify_true :
    (match groth16Setup testR1cs with
     | .error e => .error e
     | .ok s =>
       match prove s.proving_key testR1cs testWitness with
       | .error e => .error e
       | .ok pr => groth16Verify s.verifying_key pr.proof pr.public_inputs) =
      Except.ok true := by decide

theorem mapM_extract_ok (l : List Nat) (w : WitnessMap)
    (h : ∀ i ∈ l, (w i).isSome = true) :
    l.mapM (fun i =>
      match w i with
      | some v => Except.ok v
      | none => Except.error (ArkErr.MissingWitness i)) =
      Except.ok (l.map (fun i => (w i).getD 0)) := by
  induction l with
  | nil => rfl
  | cons i rest ih =>
    obtain ⟨v, hv⟩ := Option.isSome_iff_exists.mp (h i (by simp))
    rw [List.mapM_cons, hv, ih fun x hx => h x (by simp [hx])]
    simp [hv, bind, Except.bind, pure, Except.pure]

theorem extractPublics_of_allocOk (r : AcirR1cs) (w : WitnessMap)
    (h : allocOk r w = true) :
    extractPublics r w = Except.ok (r.public_inputs.map (fun i => (w i).getD 0)) := by
  have hall : ∀ i ∈ r.public_inputs, (w i).isSome = true := by
    have := (Bool.and_eq_true _ _).mp h
    intro i hi
    exact (List.all_eq_true.mp this.1) i hi
  exact mapM_extract_ok _ _ hall

/-- The concrete witness of C4's missing-index scenario: index 2 is
required (2 < num_witnesses, private) but absent. -/
def c4MissingWitness : WitnessMap := fun i =>
  if i = 0 then some 1
  else if i = 1 then some 3
  else if i = 3 then some 12
  else none

/-- The unsatisfying witness x = 3, y = 4, z = 11 of C4. -/
def c4BadWitness : WitnessMap := fun i =>
  if i = 0 then some 1
  else if i = 1 then some 3
  else if i = 2 then some 4
  else if i = 3 then some 11
  else none

theorem prove_err_alloc (pk : ProvingKeyModel) (r : AcirR1cs) (w : WitnessMap)
    (h : allocOk r w = false) : prove pk r w = Except.error ArkErr.ProofError := by
  simp [prove, arkGroth16Prove, h]

theorem prove_err_unsat (pk : ProvingKeyModel) (r : AcirR1cs) (w : WitnessMap)
    (h : satisfiedB r w = false) : prove pk r w = Except.error ArkErr.ProofError := by
  by_cases hok : allocOk r w = true
  · simp [prove, arkGroth16Prove, hok, h]
  · exact prove_err_alloc pk r w (by simpa using hok)

theorem prove_ok (pk : ProvingKeyModel) (r : AcirR1cs) (w : WitnessMap)
    (hok : allocOk r w = true) (hsat : satisfiedB r w = true) :
    prove pk r w = Except.ok
      ⟨⟨r, r.public_inputs.map fun i => (assignedValue r w i).getD 0⟩,
        r.public_inputs.map fun i => (w i).getD 0⟩ := by
  rw [prove, arkGroth16Prove]
  simp only [hok, hsat, Bool.true_eq_false, if_false]
  rw [extractPublics_of_allocOk r w hok]

/-- Counterexample to C4 as stated: with witness index 2 absent from the
map (a required private index of the w₁·w₂ = w₃ circuit), `prove` fails
with the proof-generation error `ProofError`, not with
`MissingWitness(2)` — the ark synthesis failure is wrapped by `map_err`
into `ProofError` before the `MissingWitness` extraction path can run. -/
theorem c4_counterexample :
    prove ⟨testR1cs⟩ testR1cs c4MissingWitness = Except.error ArkErr.ProofError ∧
    c4MissingWitness 2 = none ∧ 2 < testR1cs.num_witnesses := by decide

/-- C4 (amended): `prove` fails with the proof-generation error both
when a required witness index is absent from the map (the ark
assignment-missing failure is wrapped as a proof-generation error) and
when the witness values do not satisfy the constraints; every error
`prove` can return is the proof-generation error, so the
missing-witness error in the public-input re-extraction is unreachable. -/
theorem c4_prove_failure_modes_amended :
    (∀ (pk : ProvingKeyModel) (r : AcirR1cs) (w : WitnessMap),
      allocOk r w = false → prove pk r w = Except.error ArkErr.ProofError) ∧
    (∀ (pk : ProvingKeyModel) (r : AcirR1cs) (w : WitnessMap),
      allocOk r w = true → satisfiedB r w = false →
      prove pk r w = Except.error ArkErr.ProofError) ∧
    (∀ (pk : ProvingKeyModel) (r : AcirR1cs) (w : WitnessMap) (e : ArkErr),
      prove pk r w = Except.error e → e = ArkErr.ProofError) := by
  refine ⟨?_, ?_, ?_⟩
  · intro pk r w h
    exact prove_err_alloc pk r w h
  · intro pk r w _ hsat
    exact prove_err_unsat pk r w hsat
  · intro pk r w e h
    by_cases hok : allocOk r w = true
    · by_cases hsat : satisfiedB r w = true
      · rw [prove_ok pk r w hok hsat] at h
        exact absurd h (by simp)
      · rw [prove_err_unsat pk r w (by simpa using hsat)] at h
        exact (Except.error.inj h).symm
    · rw [prove_err_alloc pk r w (by simpa using hok)] at h
      exact (Except.error.inj h).symm

/-- Witness for C4's amended statement at the two concrete witnesses:
index 2 missing, and the unsatisfied z = 11 assignment. -/
theorem c4_prove_failure_modes_amended_witness :
    prove ⟨testR1cs⟩ testR1cs c4MissingWitness = Except.error ArkErr.ProofError ∧
    prove ⟨testR1cs⟩ testR1cs c4BadWitness = Except.error ArkErr.ProofError :=
  ⟨c4_prove_failure_modes_amended.1 ⟨testR1cs⟩ testR1cs c4MissingWitness (by decide),
   c4_prove_failure_modes_amended.2.1 ⟨testR1cs⟩ testR1cs c4BadWitness
     (by decide) (by decide)⟩

theorem all_congrList {α : Type} (f g : α → Bool) (l : List α)
    (h : ∀ x ∈ l, f x = g x) : l.all f = l.all g := by
  induction l with
  | nil => rfl
  | cons a rest ih =>
    simp only [List.all_cons, h a (by simp), ih fun x hx => h x (by simp [hx])]

theorem foldl_congrF {α β : Type} (f g : α → β → α) (l : List β) (a : α)
    (h : ∀ acc x, x ∈ l → f acc x = g acc x) : l.foldl f a = l.foldl g a := by
  induction l generalizing a with
  | nil => rfl
  | cons x rest ih =>
    rw [List.foldl_cons, List.foldl_cons, h a x (by simp)]
    exact ih _ fun acc y hy => h acc y (by simp [hy])

theorem assignedValue_key0_congr (r : AcirR1cs) (w₁ w₂ : WitnessMap)
    (hw : ∀ k, k ≠ 0 → w₁ k = w₂ k) (h0 : r.public_inputs.contains 0 = false)
    (i : Nat) : assignedValue r w₁ i = assignedValue r w₂ i := by
  by_cases hi : i = 0
  · subst hi
    have h0' : (0 : Nat) ∉ r.public_inputs := by simpa using h0
    simp [assignedValue, h0']
  · simp only [assignedValue, hw i hi]

theorem mapM_congrF {α β ε : Type} (f g : α → Except ε β) (l : List α)
    (h : ∀ x ∈ l, f x = g x) : l.mapM f = l.mapM g := by
  induction l with
  | nil => rfl
  | cons a rest ih =>
    rw [List.mapM_cons, List.mapM_cons, h a (by simp),
      ih fun x hx => h x (by simp [hx])]

theorem map_congrF {α β : Type} (f g : α → β) (l : List α)
    (h : ∀ x ∈ l, f x = g x) : l.map f = l.map g := by
  induction l with
  | nil => rfl
  | cons a rest ih =>
    rw [List.map_cons, List.map_cons, h a (by simp),
      ih fun x hx => h x (by simp [hx])]

theorem ne_zero_of_not_contains (l : List Nat) (h0 : l.contains 0 = false) :
    ∀ i ∈ l, i ≠ 0 := by
  intro i hi hi0
  subst hi0
  have : (0 : Nat) ∉ l := by simpa using h0
  exact this hi

theorem allocOk_key0_congr (r : AcirR1cs) (w₁ w₂ : WitnessMap)
    (hw : ∀ k, k ≠ 0 → w₁ k = w₂ k) (h0 : r.public_inputs.contains 0 = false) :
    allocOk r w₁ = allocOk r w₂ := by
  have hmem0 := ne_zero_of_not_contains r.public_inputs h0
  have h1 : (r.public_inputs.all fun i => (w₁ i).isSome) =
      (r.public_inputs.all fun i => (w₂ i).isSome) :=
    all_congrList _ _ _ fun i hi => by rw [hw i (hmem0 i hi)]
  have h2 : ((List.range r.num_witnesses).all fun i =>
        i == 0 || r.public_inputs.contains i || (w₁ i).isSome) =
      ((List.range r.num_witnesses).all fun i =>
        i == 0 || r.public_inputs.contains i || (w₂ i).isSome) := by
    apply all_congrList
    intro i _
    by_cases hi0 : i = 0
    · subst hi0; rfl
    · rw [hw i hi0]
  rw [allocOk, allocOk, h1, h2]

theorem buildLcVal_key0_congr (r : AcirR1cs) (w₁ w₂ : WitnessMap)
    (hw : ∀ k, k ≠ 0 → w₁ k = w₂ k) (h0 : r.public_inputs.contains 0 = false)
    (terms : List (Fr × Nat)) : buildLcVal r w₁ terms = buildLcVal r w₂ terms := by
  apply foldl_congrF
  intro acc t _
  rw [assignedValue_key0_congr r w₁ w₂ hw h0 t.2]

theorem satisfiedB_key0_congr (r : AcirR1cs) (w₁ w₂ : WitnessMap)
    (hw : ∀ k, k ≠ 0 → w₁ k = w₂ k) (h0 : r.public_inputs.contains 0 = false) :
    satisfiedB r w₁ = satisfiedB r w₂ := by
  apply all_congrList
  intro c _
  rw [constraintHolds, constraintHolds,
    buildLcVal_key0_congr r w₁ w₂ hw h0 c.a,
    buildLcVal_key0_congr r w₁ w₂ hw h0 c.b,
    buildLcVal_key0_congr r w₁ w₂ hw h0 c.c]

/-- C9: when witness index 0 is not among the declared public-input
indices, the value stored under key 0 is never read — constraint
synthesis binds index 0 to the constant-one variable — so two witness
maps differing only at key 0 give identical constraint-satisfaction
outcomes, identical `prove` results (setup never evaluates the witness
at all), and identical extracted public-input vectors. -/
theorem c9_witness_key0_never_read (pk : ProvingKeyModel) (r : AcirR1cs)
    (w₁ w₂ : WitnessMap) (hw : ∀ k, k ≠ 0 → w₁ k = w₂ k)
    (h0 : r.public_inputs.contains 0 = false) :
    satisfiedB r w₁ = satisfiedB r w₂ ∧
    extractPublics r w₁ = extractPublics r w₂ ∧
    prove pk r w₁ = prove pk r w₂ := by
  have hmem0 := ne_zero_of_not_contains r.public_inputs h0
  have hsat := satisfiedB_key0_congr r w₁ w₂ hw h0
  have halloc := allocOk_key0_congr r w₁ w₂ hw h0
  have hext : extractPublics r w₁ = extractPublics r w₂ := by
    rw [extractPublics, extractPublics]
    exact mapM_congrF _ _ _ fun i hi => by rw [hw i (hmem0 i hi)]
  have hmap : r.public_inputs.map (fun i => (assignedValue r w₁ i).getD 0) =
      r.public_inputs.map (fun i => (assignedValue r w₂ i).getD 0) :=
    map_congrF _ _ _ fun i _ => by
      rw [assignedValue_key0_congr r w₁ w₂ hw h0 i]
  have hark : arkGroth16Prove r w₁ = arkGroth16Prove r w₂ := by
    rw [arkGroth16Prove, arkGroth16Prove, halloc, hsat, hmap]
  exact ⟨hsat, hext, by rw [prove, prove, hark, hext]⟩

/-- An alternative witness map agreeing with `testWitness` except at
key 0, where it stores 999 instead of the mandated constant one. -/
def c9AltWitness : WitnessMap := fun i =>
  if i = 0 then some 999 else testWitness i

/-- Witness for C9 at the concrete circuit, with the two maps differing
only in their value at key 0. -/
theorem c9_witness_key0_never_read_witness :
    satisfiedB testR1cs testWitness = satisfiedB testR1cs c9AltWitness ∧
    extractPublics testR1cs testWitness = extractPublics testR1cs c9AltWitness ∧
    prove ⟨testR1cs⟩ testR1cs testWitness = prove ⟨testR1cs⟩ testR1cs c9AltWitness :=
  c9_witness_key0_never_read ⟨testR1cs⟩ testR1cs testWitness c9AltWitness
    (fun k hk => by simp [c9AltWitness, hk]) (by decide)

theorem buildLc_foldl_filter (r : AcirR1cs) (w : WitnessMap) :
    ∀ (terms : List (Fr × Nat)) (acc : Fr),
    terms.foldl (fun acc t =>
      if allocatedB r t.2 then acc + t.1 * ((assignedValue r w t.2).getD 0) else acc) acc =
    (terms.filter fun t => allocatedB r t.2).foldl (fun acc t =>
      if allocatedB r t.2 then acc + t.1 * ((assignedValue r w t.2).getD 0) else acc) acc
  | [], _ => rfl
  | t :: rest, acc => by
    cases h : allocatedB r t.2 with
    | true =>
      have hf : (t :: rest).filter (fun t => allocatedB r t.2) =
          t :: rest.filter (fun t => allocatedB r t.2) := by
        simp [List.filter_cons, h]
      rw [hf, List.foldl_cons, List.foldl_cons]
      exact buildLc_foldl_filter r w rest _
    | false =>
      have hf : (t :: rest).filter (fun t => allocatedB r t.2) =
          rest.filter (fun t => allocatedB r t.2) := by
        simp [List.filter_cons, h]
      rw [hf, List.foldl_cons]
      have hstep : (if allocatedB r t.2 then
          acc + t.1 * ((assignedValue r w t.2).getD 0) else acc) = acc := by
        rw [h]
        simp
      rw [hstep]
      exact buildLc_foldl_filter r w rest acc

theorem buildLcVal_append_unalloc (r : AcirR1cs) (w : WitnessMap)
    (terms : List (Fr × Nat)) (co : Fr) (j : Nat) (h : allocatedB r j = false) :
    buildLcVal r w (terms ++ [(co, j)]) = buildLcVal r w terms := by
  rw [buildLcVal, buildLcVal, List.foldl_append]
  simp [h]

theorem prove_publics_congr (pk : ProvingKeyModel) (r₁ r₂ : AcirR1cs) (w : WitnessMap)
    (hpub : r₁.public_inputs = r₂.public_inputs)
    (halloc : allocOk r₁ w = allocOk r₂ w)
    (hsat : satisfiedB r₁ w = satisfiedB r₂ w) :
    Except.map ProofResult.public_inputs (prove pk r₁ w) =
    Except.map ProofResult.public_inputs (prove pk r₂ w) := by
  by_cases hok : allocOk r₁ w = true
  · have hok2 : allocOk r₂ w = true := halloc ▸ hok
    by_cases hs : satisfiedB r₁ w = true
    · have hs2 : satisfiedB r₂ w = true := hsat ▸ hs
      rw [prove_ok pk r₁ w hok hs, prove_ok pk r₂ w hok2 hs2]
      simp [Except.map, hpub]
    · have hs1 : satisfiedB r₁ w = false := by simpa using hs
      rw [prove_err_unsat pk r₁ w hs1, prove_err_unsat pk r₂ w (hsat ▸ hs1)]
  · have h1 : allocOk r₁ w = false := by simpa using hok
    rw [prove_err_alloc pk r₁ w h1, prove_err_alloc pk r₂ w (halloc ▸ h1)]

/-- C10: `build_lc` silently omits every term whose witness index has no
allocated variable — its result is the sum over exactly the terms with
an allocated index — so a constraint carrying an extra term at an
unallocated index (one that is at least the witness count, not declared
public, and not 0) is enforced by setup and prove exactly as if the term
were absent, raising no error: the error/success outcome and the
public-input vector of `prove` are unchanged (setup never inspects
constraints and always succeeds). -/
theorem c10_unallocated_terms_dropped :
    (∀ (r : AcirR1cs) (w : WitnessMap) (terms : List (Fr × Nat)),
      buildLcVal r w terms = buildLcVal r w (terms.filter fun t => allocatedB r t.2)) ∧
    (∀ (r : AcirR1cs) (w : WitnessMap) (terms : List (Fr × Nat)) (co : Fr) (j : Nat),
      allocatedB r j = false →
      buildLcVal r w (terms ++ [(co, j)]) = buildLcVal r w terms) ∧
    (∀ (pk : ProvingKeyModel) (r : AcirR1cs) (w : WitnessMap)
      (cs₁ cs₂ : List R1csConstraint) (a b c : List (Fr × Nat)) (co : Fr) (j : Nat),
      allocatedB r j = false →
      Except.map ProofResult.public_inputs
        (prove pk { r with constraints := cs₁ ++ ⟨a ++ [(co, j)], b, c⟩ :: cs₂ } w) =
      Except.map ProofResult.public_inputs
        (prove pk { r with constraints := cs₁ ++ ⟨a, b, c⟩ :: cs₂ } w)) := by
  refine ⟨fun r w terms => buildLc_foldl_filter r w terms 0,
    buildLcVal_append_unalloc, ?_⟩
  intro pk r w cs₁ cs₂ a b c co j h
  have hmid : constraintHolds { r with constraints := cs₁ ++ ⟨a ++ [(co, j)], b, c⟩ :: cs₂ } w
        ⟨a ++ [(co, j)], b, c⟩ =
      constraintHolds { r with constraints := cs₁ ++ ⟨a, b, c⟩ :: cs₂ } w ⟨a, b, c⟩ := by
    rw [constraintHolds, constraintHolds]
    rw [show buildLcVal { r with constraints := cs₁ ++ ⟨a ++ [(co, j)], b, c⟩ :: cs₂ } w
          (a ++ [(co, j)]) =
        buildLcVal { r with constraints := cs₁ ++ ⟨a ++ [(co, j)], b, c⟩ :: cs₂ } w a from
      buildLcVal_append_unalloc _ w a co j h]
    rfl
  have hsat : satisfiedB { r with constraints := cs₁ ++ ⟨a ++ [(co, j)], b, c⟩ :: cs₂ } w =
      satisfiedB { r with constraints := cs₁ ++ ⟨a, b, c⟩ :: cs₂ } w := by
    rw [satisfiedB, satisfiedB]
    show (cs₁ ++ ⟨a ++ [(co, j)], b, c⟩ :: cs₂).all
        (constraintHolds { r with constraints := cs₁ ++ ⟨a ++ [(co, j)], b, c⟩ :: cs₂ } w) =
      (cs₁ ++ ⟨a, b, c⟩ :: cs₂).all
        (constraintHolds { r with constraints := cs₁ ++ ⟨a, b, c⟩ :: cs₂ } w)
    rw [List.all_append, List.all_append, List.all_cons, List.all_cons, hmid]
    rfl
  exact prove_publics_congr pk _ _ w rfl rfl hsat

/-- Witness for C10 at the concrete test circuit, with the extra term
7·w₉ at the unallocated index 9 (9 ≥ num_witnesses = 4). -/
theorem c10_unallocated_terms_dropped_witness :
    buildLcVal testR1cs testWitness [((7 : Fr), 9)] =
      buildLcVal testR1cs testWitness
        ([((7 : Fr), 9)].filter fun t => allocatedB testR1cs t.2) ∧
    buildLcVal testR1cs testWitness ([((1 : Fr), 1)] ++ [((7 : Fr), 9)]) =
      buildLcVal testR1cs testWitness [((1 : Fr), 1)] ∧
    Except.map ProofResult.public_inputs
      (prove ⟨testR1cs⟩
        { testR1cs with constraints :=
          [] ++ ⟨[((1 : Fr), 1)] ++ [((7 : Fr), 9)], [((1 : Fr), 2)], [((1 : Fr), 3)]⟩ :: [] }
        testWitness) =
    Except.map ProofResult.public_inputs
      (prove ⟨testR1cs⟩
        { testR1cs with constraints :=
          [] ++ ⟨[((1 : Fr), 1)], [((1 : Fr), 2)], [((1 : Fr), 3)]⟩ :: [] }
        testWitness) :=
  ⟨c10_unallocated_terms_dropped.1 testR1cs testWitness [((7 : Fr), 9)],
   c10_unallocated_terms_dropped.2.1 testR1cs testWitness [((1 : Fr), 1)] 7 9 (by decide),
   c10_unallocated_terms_dropped.2.2 ⟨testR1cs⟩ testR1cs testWitness [] []
     [((1 : Fr), 1)] [((1 : Fr), 2)] [((1 : Fr), 3)] 7 9 (by decide)⟩

end IziNoir
